import Mathlib

/-!
# Verification of the Distributed KV-Store

A shallow embedding of the store's core algorithms, translated from the
Python sources (`server.py`, `indexing_module.py`, `cluster.py`,
`masterless_replication.py`), together with theorems settling the frozen
claims about the natural-language specification.

Modelling conventions:
* Python `dict`s become association lists (`List (key × value)`): insertion
  keeps the position of an existing key and appends a fresh key at the end,
  exactly like CPython dicts; deletion removes the entry.  Reachable dicts
  never contain a duplicate key, which appears as a `NodupKeys` side
  condition where a proof needs it.
* The JSON layer is abstracted: a WAL record is an `Option Entry`, `none`
  standing for a line that fails to parse (a partial trailing record).
* `math.log` on floats is modelled as an abstract function `logFn : ℚ → ℚ`
  applied to the exactly-computed rational argument; no claim depends on
  particular values of the logarithm, only on the shape of the formula.
* Python `set` iteration order is unspecified (string hashing is seeded per
  process), so the candidate-set enumeration inside `full_text_search` is an
  explicit parameter constrained to enumerate exactly the candidate keys.
-/

/-! ## Association lists (Python `dict` model) -/

def alookup {α β : Type} [DecidableEq α] : List (α × β) → α → Option β
  | [], _ => none
  | p :: rest, k => if p.1 = k then some p.2 else alookup rest k

def aupdate {α β : Type} [DecidableEq α] : List (α × β) → α → β → List (α × β)
  | [], k, v => [(k, v)]
  | p :: rest, k, v => if p.1 = k then (k, v) :: rest else p :: aupdate rest k v

def aerase {α β : Type} [DecidableEq α] : List (α × β) → α → List (α × β)
  | [], _ => []
  | p :: rest, k => if p.1 = k then rest else p :: aerase rest k

def NodupKeys {α β : Type} (l : List (α × β)) : Prop := (l.map Prod.fst).Nodup

instance {α β : Type} [DecidableEq α] (l : List (α × β)) : Decidable (NodupKeys l) := by
  unfold NodupKeys; infer_instance

/-! ## Tokenization (`IndexManager._tokenize`)

`re.findall(r'\b\w+\b', text.lower())`: lowercase, then the maximal runs of
word characters.  Word characters are modelled as ASCII alphanumerics plus
underscore, and Python `str.lower` as per-character `Char.toLower`. -/

def isWordChar (c : Char) : Bool := c.isAlphanum || c = '_'

def tokenizeAux : List Char → List Char → List (List Char)
  | [], [] => []
  | [], cur => [cur.reverse]
  | c :: rest, cur =>
    if isWordChar c then tokenizeAux rest (c :: cur)
    else if cur = [] then tokenizeAux rest []
    else cur.reverse :: tokenizeAux rest []

def lowerChars (s : String) : List Char := s.toList.map Char.toLower

def tokenize (s : String) : List String :=
  (tokenizeAux (lowerChars s) []).map List.asString

def lowerStr (s : String) : String := (lowerChars s).asString

/-! ## Log entries and recovery (`KVStore._apply_entry`, `KVStore._load_from_disk`) -/

inductive Entry : Type where
  | set (key value : String)
  | del (key : String)
  | bulkSet (items : List (String × String))
deriving DecidableEq

abbrev KVMap : Type := List (String × String)

def applyEntry (e : Entry) (m : KVMap) : KVMap :=
  match e with
  | .set k v => aupdate m k v
  | .del k => aerase m k
  | .bulkSet items => items.foldl (fun acc p => aupdate acc p.1 p.2) m

/-- The WAL replay loop of `_load_from_disk`: each line either parses to an
entry (`some e`, which is applied) or fails to parse (`none`, which the code
reports and then `continue`s past). -/
def replayLog (m : KVMap) : List (Option Entry) → KVMap
  | [] => m
  | none :: rest => replayLog m rest
  | some e :: rest => replayLog (applyEntry e m) rest

/-- Modelled from the spec's words (for comparison with `replayLog`): the spec
says a record that fails to parse "terminates the scan cleanly", so scanning
stops at the first unparseable record. -/
def replayLogSpec (m : KVMap) : List (Option Entry) → KVMap
  | [] => m
  | none :: _ => m
  | some e :: rest => replayLogSpec (applyEntry e m) rest

/-! ## Index manager state and operations (`indexing_module.py`)

The embedding codomain is a type parameter `E` and the embedding function a
parameter `embedF`: the index-consistency claims do not depend on what the
embedding computes, only on which keys carry one.  The concrete real-valued
embedding of `_embed` is defined separately below for claim C9. -/

structure IndexSt (E : Type) : Type where
  inverted : List (String × List (String × Nat))
  forward : List (String × List String)
  docCount : Nat
  phrases : List (String × String)
  embeddings : List (String × E)
deriving DecidableEq

def emptyIndex (E : Type) : IndexSt E := ⟨[], [], 0, [], []⟩

/-- One iteration of the removal loop in `_remove_internal`:
`if word in self.inverted and key in self.inverted[word]: del ...;
 if not self.inverted[word]: del self.inverted[word]`. -/
def removeKeyFromPosting (inv : List (String × List (String × Nat))) (w key : String) :
    List (String × List (String × Nat)) :=
  match alookup inv w with
  | none => inv
  | some pl =>
    if (alookup pl key).isSome then
      if aerase pl key = [] then aerase inv w else aupdate inv w (aerase pl key)
    else inv

/-- `IndexManager._remove_internal`. -/
def removeInternal {E : Type} (key : String) (idx : IndexSt E) : IndexSt E :=
  match alookup idx.forward key with
  | none => idx
  | some words =>
    { inverted := words.foldl (fun inv w => removeKeyFromPosting inv w key) idx.inverted
      forward := aerase idx.forward key
      docCount := idx.docCount - 1
      phrases := aerase idx.phrases key
      embeddings := aerase idx.embeddings key }

/-- `IndexManager.remove_value` (just `_remove_internal` under the lock). -/
def removeValue {E : Type} (key : String) (idx : IndexSt E) : IndexSt E :=
  removeInternal key idx

/-- One iteration of the inverted-index loop in `index_value`:
`if key not in self.inverted[word]: self.inverted[word][key] = 0;
 self.inverted[word][key] += 1` (with `defaultdict` creating the posting). -/
def incPosting (inv : List (String × List (String × Nat))) (w key : String) :
    List (String × List (String × Nat)) :=
  let pl := (alookup inv w).getD []
  let c := (alookup pl key).getD 0
  aupdate inv w (aupdate pl key (c + 1))

/-- `IndexManager.index_value`. -/
def indexValue {E : Type} (embedF : String → E) (key value : String) (idx : IndexSt E) :
    IndexSt E :=
  let idx0 := if (alookup idx.forward key).isSome then removeInternal key idx else idx
  let words := tokenize value
  { inverted := words.foldl (fun inv w => incPosting inv w key) idx0.inverted
    forward := aupdate idx0.forward key words
    docCount := idx0.docCount + 1
    phrases := aupdate idx0.phrases key (lowerStr value)
    embeddings := aupdate idx0.embeddings key (embedF value) }

/-! ## KVStore state and CRUD operations (`server.py`) -/

structure KVSt (E : Type) : Type where
  data : KVMap
  wal : List Entry
  idx : IndexSt E
deriving DecidableEq

def emptyKV (E : Type) : KVSt E := ⟨[], [], emptyIndex E⟩

/-- `KVStore.set`: WAL append + apply to mapping + index update. -/
def kvSet {E : Type} (embedF : String → E) (key value : String) (st : KVSt E) : KVSt E :=
  { data := applyEntry (.set key value) st.data
    wal := st.wal ++ [Entry.set key value]
    idx := indexValue embedF key value st.idx }

/-- `KVStore.delete`: returns `False` without touching anything when the key is
absent, otherwise appends a delete record, applies it and removes the key from
the indexes. -/
def kvDelete {E : Type} (_embedF : String → E) (key : String) (st : KVSt E) : Bool × KVSt E :=
  if (alookup st.data key).isSome then
    (true,
      { data := applyEntry (.del key) st.data
        wal := st.wal ++ [Entry.del key]
        idx := removeValue key st.idx })
  else (false, st)

/-- `KVStore.bulk_set`: one WAL record for the whole batch, one mapping
transition, then each pair is indexed in order. -/
def kvBulkSet {E : Type} (embedF : String → E) (items : List (String × String)) (st : KVSt E) :
    KVSt E :=
  { data := applyEntry (.bulkSet items) st.data
    wal := st.wal ++ [Entry.bulkSet items]
    idx := items.foldl (fun ix p => indexValue embedF p.1 p.2 ix) st.idx }

/-- `KVStore.apply_replication_log`: WAL append + apply + index, per entry kind. -/
def applyReplicationLog {E : Type} (embedF : String → E) (e : Entry) (st : KVSt E) : KVSt E :=
  { data := applyEntry e st.data
    wal := st.wal ++ [e]
    idx :=
      match e with
      | .set k v => indexValue embedF k v st.idx
      | .bulkSet items => items.foldl (fun ix p => indexValue embedF p.1 p.2 ix) st.idx
      | .del k => removeValue k st.idx }

/-! ## Full-text search (`IndexManager.full_text_search`, `_tf`, `_idf`)

Scores live in `ℚ`: float arithmetic is idealised as exact arithmetic and
`math.log` is an abstract `logFn : ℚ → ℚ` applied to the exact rational
argument.  The Python candidate `set` has unspecified iteration order, so the
enumeration of the candidate set is an explicit `order` parameter; theorems
constrain it to enumerate exactly the candidates.  `sortD` is Python's
`sorted(..., key=lambda x: x[1], reverse=True)`: a stable descending sort. -/

def tfScore {E : Type} (idx : IndexSt E) (w k : String) : ℚ :=
  let words := (alookup idx.forward k).getD []
  if words = [] then 0
  else (((alookup ((alookup idx.inverted w).getD []) k).getD 0 : ℚ)) / (words.length : ℚ)

def dfCount {E : Type} (idx : IndexSt E) (w : String) : Nat :=
  ((alookup idx.inverted w).getD []).length

def idfScore {E : Type} (logFn : ℚ → ℚ) (idx : IndexSt E) (w : String) : ℚ :=
  if dfCount idx w = 0 then 0
  else logFn (((idx.docCount : ℚ) + 1) / ((dfCount idx w : ℚ) + 1))

/-- The score loop body: `score += self._tf(word, key) * self._idf(word)`. -/
def ftsScore {E : Type} (logFn : ℚ → ℚ) (idx : IndexSt E) (q k : String) : ℚ :=
  (tokenize q).foldl (fun s w => s + tfScore idx w k * idfScore logFn idx w) 0

/-- Candidate predicate: the key appears in some query token's posting
(`candidates.update(self.inverted.get(word, {}).keys())`). -/
def isCandidate {E : Type} (idx : IndexSt E) (q k : String) : Prop :=
  ∃ w ∈ tokenize q, k ∈ ((alookup idx.inverted w).getD []).map Prod.fst

instance {E : Type} (idx : IndexSt E) (q k : String) : Decidable (isCandidate idx q k) := by
  unfold isCandidate; infer_instance

/-- Stable insertion step of the descending sort: a later element passes every
earlier element with a score `≥` its own, so equal scores keep their order. -/
def insertD (x : String × ℚ) : List (String × ℚ) → List (String × ℚ)
  | [] => [x]
  | y :: rest => if y.2 < x.2 then x :: y :: rest else y :: insertD x rest

/-- Python's `sorted(items, key=lambda x: x[1], reverse=True)`: stable,
descending by score. -/
def sortD (l : List (String × ℚ)) : List (String × ℚ) :=
  l.foldl (fun acc x => insertD x acc) []

/-- `IndexManager.full_text_search`, with the candidate-set iteration order as
the explicit parameter `order`. -/
def fullTextSearch {E : Type} (logFn : ℚ → ℚ) (order : List String) (idx : IndexSt E)
    (q : String) (topK : Nat) : List (String × ℚ) :=
  if tokenize q = [] then []
  else (sortD (order.map (fun k => (k, ftsScore logFn idx q k)))).take topK

/-- Modelled from the spec's words: the claimed per-key score
`Σ_t tf(t,key)·idf(t)` with `tf(t,k) = count(t in k) / |tokens(k)|` and
`idf(t) = ln((N+1)/(df(t)+1))` taken unconditionally (no `df = 0` guard;
division by zero in `ℚ` is zero, matching the code's `0.0` guard for an
empty token list). -/
def ftsScoreSpec {E : Type} (logFn : ℚ → ℚ) (idx : IndexSt E) (q k : String) : ℚ :=
  ((tokenize q).map (fun w =>
    (((alookup ((alookup idx.inverted w).getD []) k).getD 0 : ℚ) /
        (((alookup idx.forward k).getD []).length : ℚ)) *
      logFn (((idx.docCount : ℚ) + 1) / ((dfCount idx w : ℚ) + 1)))).sum

/-! ## Masterless replication (`masterless_replication.py`)

Vector clocks are Python dicts from node-id tags to counters; node ids are
modelled as `Nat` (the code's `str(i)` tagging is a bijection on ids and is
dropped).  The wall-clock `time` field of a conflict record is outside the
embedding and omitted. -/

abbrev Clock : Type := List (Nat × Nat)

def cget (c : Clock) (n : Nat) : Nat := (alookup c n).getD 0

/-- `all(clock_a.get(k, 0) <= clock_b.get(k, 0) for k in set(clock_a) | set(clock_b))`. -/
def cleqB (a b : Clock) : Bool :=
  (a.map Prod.fst ++ b.map Prod.fst).all (fun k => cget a k ≤ cget b k)

/-- `MasterlessNode._is_concurrent`. -/
def isConcurrentB (a b : Clock) : Bool := !cleqB a b && !cleqB b a

/-- `MasterlessNode._merge_clock`: componentwise max of the incoming clock into
the local clock. -/
def mergeClock (mine other : Clock) : Clock :=
  other.foldl (fun acc p => aupdate acc p.1 (max (cget acc p.1) p.2)) mine

structure ConflictRec : Type where
  source : Nat
  entry : Entry
  myClock : Clock
  theirClock : Clock
  resolution : String
deriving DecidableEq

structure MNode (E : Type) : Type where
  nodeId : Nat
  clock : Clock
  applied : List (Nat × Nat)
  conflicts : List ConflictRec
  store : KVSt E
deriving DecidableEq

/-- The clock-merge and bookkeeping tail of `_handle_replicate`: merge the
incoming clock into the local clock, then record the new last-applied version
from the source. -/
def mergeAndMark {E : Type} (node1 : MNode E) (incomingClock : Clock) (source : Nat) :
    MNode E :=
  { node1 with
    clock := mergeClock node1.clock incomingClock
    applied := aupdate node1.applied source (cget incomingClock source) }

/-- `MasterlessNode._handle_replicate`: drop if the source's component is
already applied; otherwise detect concurrency against the current clock,
log a conflict and tiebreak by node id when concurrent, apply unconditionally
when not, then merge clocks and record the applied version. -/
def handleReplicate {E : Type} (embedF : String → E) (node : MNode E) (incomingClock : Clock)
    (source : Nat) (entry : Entry) : MNode E :=
  if cget incomingClock source ≤ (alookup node.applied source).getD 0 then node
  else if isConcurrentB node.clock incomingClock then
    mergeAndMark
      { node with
        conflicts := node.conflicts ++
          [⟨source, entry, node.clock, incomingClock, "Merged concurrent write"⟩]
        store :=
          if node.nodeId ≤ source then applyReplicationLog embedF entry node.store
          else node.store }
      incomingClock source
  else
    mergeAndMark { node with store := applyReplicationLog embedF entry node.store }
      incomingClock source

/-- The message routing chain of `MasterlessNode._dispatch`, handler by handler
in source order; a message type matching none of them falls through to the
`{'status': 'error', 'message': f'Unknown command: {msg_type}'}` response. -/
inductive MRoute : Type where
  | replicate
  | set
  | get
  | delete
  | bulkSet
  | fullTextSearchCmd
  | semanticSearchCmd
  | phraseSearchCmd
  | getClock
  | getConflicts
  | unknownCommand (status message : String)
deriving DecidableEq

def mDispatchRoute (msgType : String) : MRoute :=
  if msgType = "replicate" then .replicate
  else if msgType = "set" then .set
  else if msgType = "get" then .get
  else if msgType = "delete" then .delete
  else if msgType = "bulk_set" then .bulkSet
  else if msgType = "full_text_search" then .fullTextSearchCmd
  else if msgType = "semantic_search" then .semanticSearchCmd
  else if msgType = "phrase_search" then .phraseSearchCmd
  else if msgType = "get_clock" then .getClock
  else if msgType = "get_conflicts" then .getConflicts
  else .unknownCommand "error" ("Unknown command: " ++ msgType)

/-- `_sync_with_peers` reads `data.get('entries', [])` from each peer's
response to `get_all_entries` and feeds each returned record through
`_handle_replicate`; a response without an `entries` field therefore
contributes nothing. -/
def syncRecordsOfResponse (entriesField : Option (List (Entry × Clock × Nat))) :
    List (Entry × Clock × Nat) :=
  entriesField.getD []

/-! ## Leader replication (`cluster.py`)

`_replicate_to_followers` applies the entry locally, counts one ack for self
plus one per peer whose `replicate` RPC returned success, and commits iff the
count reaches the hard-coded threshold `2`.  The network is an oracle
`acks : Nat → Bool` saying which peer indices acknowledged. -/

def ackCount (nodeId numPeers : Nat) (acks : Nat → Bool) : Nat :=
  1 + ((List.range numPeers).filter (fun i => decide (i ≠ nodeId) && acks i)).length

/-- The commit decision of `_replicate_to_followers`: `return ack_count >= 2`. -/
def replicateSuccess (nodeId numPeers : Nat) (acks : Nat → Bool) : Bool :=
  2 ≤ ackCount nodeId numPeers acks

/-- Modelled from the spec's words: commit when the acknowledgment count
reaches a strict majority of the cluster size (glossary: "Quorum: strict
majority of cluster nodes"). -/
def majoritySuccess (nodeId numPeers : Nat) (acks : Nat → Bool) : Bool :=
  numPeers < 2 * ackCount nodeId numPeers acks

inductive LResp : Type where
  | ok
  | errorMsg (message : String)
  | redirect (leaderId : Option Nat)
deriving DecidableEq

/-- The `set` branch of `ClusterNode._dispatch` on a LEADER node: `{'status':
'ok'}` on replication success, else `{'status': 'error', 'message':
'replication failed'}`. -/
def leaderDispatchSet (nodeId numPeers : Nat) (acks : Nat → Bool) : LResp :=
  if replicateSuccess nodeId numPeers acks then .ok
  else .errorMsg "replication failed"

/-! ## MD5 and the trigram embedding (`IndexManager._embed`)

A complete MD5 over byte lists (32-bit words as `Nat` reduced mod `2^32`),
so that `int(hashlib.md5(trigram.encode()).hexdigest(), 16)` is the digest's
sixteen bytes read as a base-256 big-endian integer. -/

def md5S : List Nat :=
  [7, 12, 17, 22, 7, 12, 17, 22, 7, 12, 17, 22, 7, 12, 17, 22,
   5, 9, 14, 20, 5, 9, 14, 20, 5, 9, 14, 20, 5, 9, 14, 20,
   4, 11, 16, 23, 4, 11, 16, 23, 4, 11, 16, 23, 4, 11, 16, 23,
   6, 10, 15, 21, 6, 10, 15, 21, 6, 10, 15, 21, 6, 10, 15, 21]

def md5K : List Nat :=
  [0xd76aa478, 0xe8c7b756, 0x242070db, 0xc1bdceee,
   0xf57c0faf, 0x4787c62a, 0xa8304613, 0xfd469501,
   0x698098d8, 0x8b44f7af, 0xffff5bb1, 0x895cd7be,
   0x6b901122, 0xfd987193, 0xa679438e, 0x49b40821,
   0xf61e2562, 0xc040b340, 0x265e5a51, 0xe9b6c7aa,
   0xd62f105d, 0x02441453, 0xd8a1e681, 0xe7d3fbc8,
   0x21e1cde6, 0xc33707d6, 0xf4d50d87, 0x455a14ed,
   0xa9e3e905, 0xfcefa3f8, 0x676f02d9, 0x8d2a4c8a,
   0xfffa3942, 0x8771f681, 0x6d9d6122, 0xfde5380c,
   0xa4beea44, 0x4bdecfa9, 0xf6bb4b60, 0xbebfbc70,
   0x289b7ec6, 0xeaa127fa, 0xd4ef3085, 0x04881d05,
   0xd9d4d039, 0xe6db99e5, 0x1fa27cf8, 0xc4ac5665,
   0xf4292244, 0x432aff97, 0xab9423a7, 0xfc93a039,
   0x655b59c3, 0x8f0ccc92, 0xffeff47d, 0x85845dd1,
   0x6fa87e4f, 0xfe2ce6e0, 0xa3014314, 0x4e0811a1,
   0xf7537e82, 0xbd3af235, 0x2ad7d2bb, 0xeb86d391]

def mnot32 (x : Nat) : Nat := 0xFFFFFFFF ^^^ x

def rotl32 (x n : Nat) : Nat := (((x <<< n) % 2 ^ 32) ||| (x >>> (32 - n)))

def md5F (i b c d : Nat) : Nat :=
  if i < 16 then (b &&& c) ||| (mnot32 b &&& d)
  else if i < 32 then (d &&& b) ||| (mnot32 d &&& c)
  else if i < 48 then b ^^^ c ^^^ d
  else c ^^^ (b ||| mnot32 d)

def md5G (i : Nat) : Nat :=
  if i < 16 then i
  else if i < 32 then (5 * i + 1) % 16
  else if i < 48 then (3 * i + 5) % 16
  else (7 * i) % 16

def toLEBytes (n x : Nat) : List Nat := (List.range n).map (fun i => (x >>> (8 * i)) % 256)

def fromLEBytes (bs : List Nat) : Nat := bs.foldr (fun b acc => b + 256 * acc) 0

def md5Round (m : List Nat) (st : Nat × Nat × Nat × Nat) (i : Nat) : Nat × Nat × Nat × Nat :=
  match st with
  | (a, b, c, d) =>
    let f := (md5F i b c d + a + md5K.getD i 0 + m.getD (md5G i) 0) % 2 ^ 32
    (d, (b + rotl32 f (md5S.getD i 0)) % 2 ^ 32, b, c)

def md5Chunk (st : Nat × Nat × Nat × Nat) (chunk : List Nat) : Nat × Nat × Nat × Nat :=
  let m := (List.range 16).map (fun g => fromLEBytes ((chunk.drop (4 * g)).take 4))
  match st, (List.range 64).foldl (md5Round m) st with
  | (a0, b0, c0, d0), (a, b, c, d) =>
    ((a0 + a) % 2 ^ 32, (b0 + b) % 2 ^ 32, (c0 + c) % 2 ^ 32, (d0 + d) % 2 ^ 32)

def md5Pad (msg : List Nat) : List Nat :=
  let padLen := (56 + 64 - ((msg.length + 1) % 64)) % 64
  msg ++ [0x80] ++ List.replicate padLen 0 ++ toLEBytes 8 ((8 * msg.length) % 2 ^ 64)

/-- `int(hashlib.md5(bytes).hexdigest(), 16)`: run MD5 and read the digest
bytes as a big-endian integer (the hex string hex-decoded). -/
def md5Int (msg : List Nat) : Nat :=
  let padded := md5Pad msg
  let chunks := (List.range (padded.length / 64)).map
    (fun i => (padded.drop (64 * i)).take 64)
  match chunks.foldl md5Chunk (0x67452301, 0xefcdab89, 0x98badcfe, 0x10325476) with
  | (a, b, c, d) =>
    (toLEBytes 4 a ++ toLEBytes 4 b ++ toLEBytes 4 c ++ toLEBytes 4 d).foldl
      (fun acc byte => acc * 256 + byte) 0

/-- UTF-8 encoding of one character (Python `str.encode()`). -/
def utf8Encode (c : Char) : List Nat :=
  let n := c.toNat
  if n < 0x80 then [n]
  else if n < 0x800 then [0xC0 ||| (n >>> 6), 0x80 ||| (n &&& 0x3F)]
  else if n < 0x10000 then
    [0xE0 ||| (n >>> 12), 0x80 ||| ((n >>> 6) &&& 0x3F), 0x80 ||| (n &&& 0x3F)]
  else
    [0xF0 ||| (n >>> 18), 0x80 ||| ((n >>> 12) &&& 0x3F), 0x80 ||| ((n >>> 6) &&& 0x3F),
     0x80 ||| (n &&& 0x3F)]

def utf8Bytes (cs : List Char) : List Nat := cs.foldr (fun c acc => utf8Encode c ++ acc) []

/-- `for i in range(len(text) - 2): trigram = text[i:i+3]`. -/
def trigrams : List Char → List (List Char)
  | c1 :: c2 :: c3 :: rest => [c1, c2, c3] :: trigrams (c2 :: c3 :: rest)
  | _ => []

/-- `idx = int(hashlib.md5(trigram.encode()).hexdigest(), 16) % self.EMBED_DIM`. -/
def trigramIndex (t : List Char) : Nat := md5Int (utf8Bytes t) % 128

/-- `vector[idx] += 1.0` on the 128-slot count vector. -/
def bump (v : List Nat) (i : Nat) : List Nat := v.set i (v.getD i 0 + 1)

/-- The integer count vector accumulated by `_embed`'s trigram loop (after the
initial `text = text.lower()`). -/
def countVec (s : String) : List Nat :=
  (trigrams (lowerChars s)).foldl (fun v t => bump v (trigramIndex t)) (List.replicate 128 0)

/-- `IndexManager._embed`: count trigram hashes into a 128-vector, then
normalize to unit Euclidean length when the magnitude is positive
(`mag = sqrt(sum(x*x for x in vector)); if mag > 0: divide`). -/
noncomputable def embed (s : String) : List ℝ :=
  if 0 < Real.sqrt
      (((countVec s).map (fun (c : Nat) => (c : ℝ))).foldl (fun acc x => acc + x * x) 0) then
    ((countVec s).map (fun (c : Nat) => (c : ℝ))).map
      (fun x => x / Real.sqrt
        (((countVec s).map (fun (c : Nat) => (c : ℝ))).foldl (fun acc x => acc + x * x) 0))
  else (countVec s).map (fun (c : Nat) => (c : ℝ))

/-- Modelled from the spec's words: per length-3 substring of the lowercased
text, bump the component at `md5(trigram UTF-8 bytes) mod 128`. -/
def countVecSpec (s : String) : List Nat :=
  (trigrams (lowerChars s)).foldl
    (fun v t => bump v (md5Int (utf8Bytes t) % 128)) (List.replicate 128 0)

/-- Modelled from the spec's words: the claimed embedding — lowercase,
hash-counted trigrams, then normalization to unit Euclidean length with a
zero vector staying zero. -/
noncomputable def embedSpec (s : String) : List ℝ :=
  if Real.sqrt
      ((((countVecSpec s).map (fun (c : Nat) => (c : ℝ))).map (fun x => x * x)).sum) = 0 then
    (countVecSpec s).map (fun (c : Nat) => (c : ℝ))
  else
    ((countVecSpec s).map (fun (c : Nat) => (c : ℝ))).map
      (fun x => x / Real.sqrt
        ((((countVecSpec s).map (fun (c : Nat) => (c : ℝ))).map (fun x => x * x)).sum))

/-! ## The index-consistency invariant (I3)

`keyTokenOk data w k` says the inverted-index entry `(w, k)` is derived from
`k`'s current value: `k` is in the mapping and `w` is one of its tokens. -/

def keyTokenOk (data : KVMap) (w k : String) : Prop :=
  ∃ v, alookup data k = some v ∧ w ∈ tokenize v

instance (data : KVMap) (w k : String) : Decidable (keyTokenOk data w k) :=
  match h : alookup data k with
  | none =>
    isFalse (by
      rintro ⟨v, hv, _⟩
      rw [h] at hv
      cases hv)
  | some v =>
    decidable_of_iff (w ∈ tokenize v)
      ⟨fun hw => ⟨v, h, hw⟩, by
        rintro ⟨v', hv', hw⟩
        rw [h] at hv'
        cases hv'
        exact hw⟩

/-- Invariant I3 of the spec, relating the mapping and the four indexes:
every mapped key has a forward posting, a phrase entry and an embedding, all
derived from its current value; every index entry (including every inverted
posting) is derived from some currently mapped key's current value; and, as
in any reachable Python `dict`, no key is duplicated. -/
def InvIdx {E : Type} (embedF : String → E) (data : KVMap) (idx : IndexSt E) : Prop :=
  NodupKeys data ∧ NodupKeys idx.forward ∧ NodupKeys idx.inverted ∧
  NodupKeys idx.phrases ∧ NodupKeys idx.embeddings ∧
  (∀ wp ∈ idx.inverted, NodupKeys wp.2) ∧
  (∀ p ∈ data, alookup idx.forward p.1 = some (tokenize p.2) ∧
    alookup idx.phrases p.1 = some (lowerStr p.2) ∧
    alookup idx.embeddings p.1 = some (embedF p.2)) ∧
  (∀ q ∈ idx.forward, (alookup data q.1).isSome) ∧
  (∀ q ∈ idx.phrases, (alookup data q.1).isSome) ∧
  (∀ q ∈ idx.embeddings, (alookup data q.1).isSome) ∧
  (∀ wp ∈ idx.inverted, ∀ kc ∈ wp.2, keyTokenOk data wp.1 kc.1)

instance {E : Type} [DecidableEq E] (embedF : String → E) (data : KVMap) (idx : IndexSt E) :
    Decidable (InvIdx embedF data idx) := by
  unfold InvIdx
  infer_instance

/-! ## Concrete example states used by counterexamples and witnesses -/

/-- Two keys `a`, `b` whose values are both the single token `x`, indexed in
the insertion order `a` then `b` (as `index_value` would build it). -/
def cIdx7 : IndexSt Unit :=
  ⟨[("x", [("a", 1), ("b", 1)])], [("a", ["x"]), ("b", ["x"])], 2, [], []⟩

/-- A one-key store over `Nat` embeddings, as built by `set("a", "x")` on an
empty store with the trivial embedding. -/
def cStore10 : KVSt Nat :=
  ⟨[("a", "x")], [Entry.set "a" "x"],
    ⟨[("x", [("a", 1)])], [("a", ["x"])], 1, [("a", "x")], [("a", 0)]⟩⟩

/-! ## Supporting lemmas -/

theorem alookup_aupdate_self {α β : Type} [DecidableEq α] (l : List (α × β)) (k : α) (v : β) :
    alookup (aupdate l k v) k = some v := by
  induction l with
  | nil => simp [aupdate, alookup]
  | cons p rest ih =>
    by_cases h : p.1 = k
    · simp [aupdate, alookup, h]
    · simp [aupdate, alookup, h, ih]

theorem alookup_aupdate_ne {α β : Type} [DecidableEq α] (l : List (α × β)) (k k' : α) (v : β)
    (hne : k' ≠ k) : alookup (aupdate l k v) k' = alookup l k' := by
  induction l with
  | nil => simp [aupdate, alookup, Ne.symm hne]
  | cons p rest ih =>
    by_cases h : p.1 = k
    · subst h
      simp [aupdate, alookup, Ne.symm hne]
    · simp only [aupdate, if_neg h]
      by_cases h' : p.1 = k'
      · simp [alookup, h']
      · simp [alookup, h', ih]

theorem alookup_aerase_ne {α β : Type} [DecidableEq α] (l : List (α × β)) (k k' : α)
    (hne : k' ≠ k) : alookup (aerase l k) k' = alookup l k' := by
  induction l with
  | nil => simp [aerase]
  | cons p rest ih =>
    by_cases h : p.1 = k
    · subst h
      simp [aerase, alookup, Ne.symm hne]
    · simp [aerase, alookup, h, ih]

theorem alookup_eq_none_of_not_mem_keys {α β : Type} [DecidableEq α] (l : List (α × β)) (k : α)
    (h : k ∉ l.map Prod.fst) : alookup l k = none := by
  induction l with
  | nil => rfl
  | cons p rest ih =>
    simp only [List.map_cons, List.mem_cons] at h
    push_neg at h
    simp [alookup, Ne.symm h.1, ih h.2]

theorem alookup_aerase_self {α β : Type} [DecidableEq α] (l : List (α × β)) (k : α)
    (h : NodupKeys l) : alookup (aerase l k) k = none := by
  induction l with
  | nil => rfl
  | cons p rest ih =>
    unfold NodupKeys at h
    simp only [List.map_cons, List.nodup_cons] at h
    by_cases hk : p.1 = k
    · subst hk
      simp [aerase, alookup_eq_none_of_not_mem_keys rest p.1 h.1]
    · simp [aerase, alookup, hk, ih h.2]

theorem mem_keys_aupdate {α β : Type} [DecidableEq α] (l : List (α × β)) (k k' : α) (v : β) :
    k' ∈ (aupdate l k v).map Prod.fst ↔ k' = k ∨ k' ∈ l.map Prod.fst := by
  induction l with
  | nil => simp [aupdate]
  | cons p rest ih =>
    by_cases h : p.1 = k
    · subst h
      simp [aupdate]
    · simp [aupdate, h, ih]
      tauto

theorem nodupKeys_aupdate {α β : Type} [DecidableEq α] (l : List (α × β)) (k : α) (v : β)
    (h : NodupKeys l) : NodupKeys (aupdate l k v) := by
  induction l with
  | nil => simp [aupdate, NodupKeys]
  | cons p rest ih =>
    unfold NodupKeys at h ⊢
    simp only [List.map_cons, List.nodup_cons] at h
    by_cases hk : p.1 = k
    · subst hk
      simpa [aupdate] using h
    · have h2 := ih h.2
      unfold NodupKeys at h2
      simp only [aupdate, if_neg hk, List.map_cons, List.nodup_cons]
      constructor
      · intro hmem
        rcases (mem_keys_aupdate rest k p.1 v).1 hmem with h1 | h1
        · exact hk h1
        · exact h.1 h1
      · exact h2

theorem keys_aerase_sublist {α β : Type} [DecidableEq α] (l : List (α × β)) (k : α) :
    ((aerase l k).map Prod.fst).Sublist (l.map Prod.fst) := by
  induction l with
  | nil => simp [aerase]
  | cons p rest ih =>
    by_cases h : p.1 = k
    · simp only [aerase, h, if_pos, List.map_cons]
      exact (List.sublist_cons_self _ _)
    · simp only [aerase, h, if_neg, List.map_cons]
      exact ih.cons₂ p.1

theorem nodupKeys_aerase {α β : Type} [DecidableEq α] (l : List (α × β)) (k : α)
    (h : NodupKeys l) : NodupKeys (aerase l k) :=
  (keys_aerase_sublist l k).nodup h

theorem mem_of_alookup_eq_some {α β : Type} [DecidableEq α] {l : List (α × β)} {k : α} {v : β}
    (h : alookup l k = some v) : (k, v) ∈ l := by
  induction l with
  | nil => simp [alookup] at h
  | cons p rest ih =>
    obtain ⟨a, b⟩ := p
    by_cases hk : a = k
    · subst hk
      simp [alookup] at h
      subst h
      exact List.mem_cons_self _ _
    · simp only [alookup, if_neg hk] at h
      exact List.mem_cons_of_mem _ (ih h)

theorem alookup_eq_some_of_mem {α β : Type} [DecidableEq α] {l : List (α × β)} {k : α} {v : β}
    (hn : NodupKeys l) (h : (k, v) ∈ l) : alookup l k = some v := by
  induction l with
  | nil => simp at h
  | cons p rest ih =>
    unfold NodupKeys at hn
    simp only [List.map_cons, List.nodup_cons] at hn
    rcases List.mem_cons.1 h with h1 | h1
    · rw [← h1]
      simp [alookup]
    · have hk : p.1 ≠ k := by
        intro he
        apply hn.1
        rw [he]
        exact List.mem_map_of_mem Prod.fst h1
      simp [alookup, hk, ih hn.2 h1]

theorem isSome_alookup_iff_mem_keys {α β : Type} [DecidableEq α] (l : List (α × β)) (k : α) :
    (alookup l k).isSome ↔ k ∈ l.map Prod.fst := by
  induction l with
  | nil => simp [alookup]
  | cons p rest ih =>
    by_cases h : p.1 = k
    · simp [alookup, h]
    · have h' : k ≠ p.1 := fun hh => h hh.symm
      simp [alookup, h, h', ih]

theorem replayLog_eq_filterMap (records : List (Option Entry)) : ∀ m : KVMap,
    replayLog m records = (records.filterMap id).foldl (fun acc e => applyEntry e acc) m := by
  induction records with
  | nil => intro m; rfl
  | cons r rest ih =>
    intro m
    cases r with
    | none => simp [replayLog, List.filterMap_cons, ih]
    | some e => simp [replayLog, List.filterMap_cons, ih]

theorem replayLog_append (recs1 recs2 : List (Option Entry)) : ∀ m : KVMap,
    replayLog m (recs1 ++ recs2) = replayLog (replayLog m recs1) recs2 := by
  induction recs1 with
  | nil => intro m; rfl
  | cons r rest ih =>
    intro m
    cases r with
    | none => simpa [replayLog] using ih m
    | some e => simpa [replayLog] using ih (applyEntry e m)

theorem alookup_foldl_aupdate_isSome_mono {α β : Type} [DecidableEq α]
    (items : List (α × β)) : ∀ (m : List (α × β)) (k : α), (alookup m k).isSome →
    (alookup (items.foldl (fun acc p => aupdate acc p.1 p.2) m) k).isSome := by
  induction items with
  | nil => intro m k h; exact h
  | cons p rest ih =>
    intro m k h
    apply ih
    by_cases hk : k = p.1
    · subst hk
      rw [alookup_aupdate_self]
      rfl
    · rw [alookup_aupdate_ne _ _ _ _ hk]
      exact h

theorem alookup_foldl_aupdate_isSome_of_mem {α β : Type} [DecidableEq α]
    (items : List (α × β)) : ∀ (m : List (α × β)) (k : α), k ∈ items.map Prod.fst →
    (alookup (items.foldl (fun acc p => aupdate acc p.1 p.2) m) k).isSome := by
  induction items with
  | nil => intro m k h; simp at h
  | cons p rest ih =>
    intro m k h
    simp only [List.map_cons, List.mem_cons] at h
    simp only [List.foldl_cons]
    rcases h with h1 | h1
    · subst h1
      apply alookup_foldl_aupdate_isSome_mono
      rw [alookup_aupdate_self]
      rfl
    · exact ih _ _ h1

/-! ## Claim theorems -/

/-- C1 (counterexample): the claim says a record that fails to parse
terminates the recovery scan, so nothing after the first unparseable record
is applied; but on the log `[unparseable, set k v]` the code's replay applies
the `set` record (it prints a warning and `continue`s), while the scan
described by the spec stops with the empty mapping. -/
theorem c1_counterexample :
    replayLog [] [none, some (Entry.set "k" "v")] = [("k", "v")] ∧
    replayLogSpec [] [none, some (Entry.set "k" "v")] = [] := by
  exact ⟨rfl, rfl⟩

/-- C1 (amended): during recovery every record that fails to parse is
reported and skipped, and the scan continues: removing an unparseable record
from anywhere in the log does not change the result, and the resulting
mapping is the in-order replay of exactly the parseable records. -/
theorem c1_parse_failures_skipped : ∀ (snap : KVMap) (pre post : List (Option Entry)),
    replayLog snap (pre ++ none :: post) = replayLog snap (pre ++ post) ∧
    replayLog snap pre = (pre.filterMap id).foldl (fun acc e => applyEntry e acc) snap := by
  intro snap pre post
  constructor
  · rw [replayLog_append, replayLog_append]
    rfl
  · exact replayLog_eq_filterMap pre snap

/-- C5 (confirmed): a `bulk_set` is persisted as exactly one WAL record and
applied as one in-memory transition: recovery applies a parseable `bulk_set`
record as a single fold that inserts every one of its pairs (so afterwards
each of its keys is present), and an unparseable record contributes nothing. -/
theorem c5_bulk_set_atomic : ∀ (E : Type) (embedF : String → E) (st : KVSt E)
    (items : List (String × String)) (snap m : KVMap) (pre post : List (Option Entry)),
    (kvBulkSet embedF items st).wal = st.wal ++ [Entry.bulkSet items] ∧
    applyEntry (.bulkSet items) m = items.foldl (fun acc p => aupdate acc p.1 p.2) m ∧
    replayLog snap (pre ++ some (Entry.bulkSet items) :: post) =
      replayLog (applyEntry (.bulkSet items) (replayLog snap pre)) post ∧
    replayLog snap (pre ++ none :: post) = replayLog snap (pre ++ post) ∧
    (∀ p ∈ items, (alookup (applyEntry (.bulkSet items) m) p.1).isSome) := by
  intro E embedF st items snap m pre post
  refine ⟨rfl, rfl, ?_, ?_, ?_⟩
  · rw [replayLog_append]
    rfl
  · rw [replayLog_append, replayLog_append]
    rfl
  · intro p hp
    exact alookup_foldl_aupdate_isSome_of_mem items m p.1 (List.mem_map_of_mem Prod.fst hp)

/-- Witness for C5 at a concrete two-pair batch applied to the empty map. -/
theorem c5_witness :
    (alookup (applyEntry (.bulkSet [("a", "1"), ("b", "2")]) ([] : KVMap)) "a").isSome = true :=
  (c5_bulk_set_atomic Nat (fun _ => 0) (emptyKV Nat) [("a", "1"), ("b", "2")]
    [] [] [] []).2.2.2.2 ("a", "1") (by decide)

/-- C10 (confirmed): deleting an absent key returns `False` and leaves the
node's state (mapping, WAL and indexes) exactly unchanged; deleting a present
key returns `True`, appends one delete record to the WAL, removes the key from
the mapping (other keys untouched) and routes index removal through
`remove_value`. -/
theorem c10_delete_semantics : ∀ (E : Type) (embedF : String → E) (key : String) (st : KVSt E),
    ((alookup st.data key).isSome = false → kvDelete embedF key st = (false, st)) ∧
    ((alookup st.data key).isSome = true → NodupKeys st.data →
      (kvDelete embedF key st).1 = true ∧
      (kvDelete embedF key st).2.wal = st.wal ++ [Entry.del key] ∧
      (kvDelete embedF key st).2.idx = removeValue key st.idx ∧
      alookup (kvDelete embedF key st).2.data key = none ∧
      ∀ k', k' ≠ key → alookup (kvDelete embedF key st).2.data k' = alookup st.data k') := by
  intro E embedF key st
  constructor
  · intro h
    simp [kvDelete, h]
  · intro h hn
    unfold kvDelete
    rw [if_pos h]
    refine ⟨rfl, rfl, rfl, ?_, ?_⟩
    · exact alookup_aerase_self st.data key hn
    · intro k' hk'
      exact alookup_aerase_ne st.data key k' hk'

/-- Witness for C10: deleting the absent key `zz` of the concrete store is a
no-op returning `False`; deleting the present key `a` returns `True` and
removes it. -/
theorem c10_witness :
    kvDelete (fun _ => (0 : Nat)) "zz" cStore10 = (false, cStore10) ∧
    (kvDelete (fun _ => (0 : Nat)) "a" cStore10).1 = true ∧
    alookup (kvDelete (fun _ => (0 : Nat)) "a" cStore10).2.data "a" = none :=
  ⟨(c10_delete_semantics Nat (fun _ => (0 : Nat)) "zz" cStore10).1 (by decide),
   ((c10_delete_semantics Nat (fun _ => (0 : Nat)) "a" cStore10).2 (by decide) (by decide)).1,
   ((c10_delete_semantics Nat (fun _ => (0 : Nat)) "a" cStore10).2 (by decide)
     (by decide)).2.2.2.1⟩

/-- C2 (counterexample): in a 5-peer cluster where exactly one peer
acknowledges, the ack count including self is 2, which the code commits
(`ack_count >= 2`), though 2 is not a strict majority of 5 — so a write is
acknowledged without the claimed majority. -/
theorem c2_counterexample :
    replicateSuccess 0 5 (fun i => i == 1) = true ∧
    majoritySuccess 0 5 (fun i => i == 1) = false := by
  exact ⟨by decide, by decide⟩

/-- C2 (amended): a client write on the LEADER is acknowledged `ok` iff the
ack count including the leader's own apply reaches the hard-coded threshold
2 (otherwise the response is the `replication failed` error); this threshold
coincides with a strict majority only for the 3-node cluster the code is
written for. -/
theorem c2_hardcoded_threshold : ∀ (nodeId numPeers : Nat) (acks : Nat → Bool),
    (leaderDispatchSet nodeId numPeers acks = .ok ↔ 2 ≤ ackCount nodeId numPeers acks) ∧
    (leaderDispatchSet nodeId numPeers acks = .ok ∨
      leaderDispatchSet nodeId numPeers acks = .errorMsg "replication failed") ∧
    (numPeers = 3 → replicateSuccess nodeId numPeers acks = majoritySuccess nodeId numPeers acks) := by
  intro nodeId numPeers acks
  refine ⟨?_, ?_, ?_⟩
  · unfold leaderDispatchSet replicateSuccess
    by_cases h : 2 ≤ ackCount nodeId numPeers acks
    · simp [h]
    · simp [h]
  · unfold leaderDispatchSet
    by_cases h : (replicateSuccess nodeId numPeers acks) = true
    · rw [if_pos h]
      exact Or.inl rfl
    · rw [if_neg (by simp [h])]
      exact Or.inr rfl
  · intro h3
    subst h3
    unfold replicateSuccess majoritySuccess
    rw [decide_eq_decide]
    omega

/-- Witness for C2's amended statement on the 3-node cluster with no acks. -/
theorem c2_witness :
    replicateSuccess 0 3 (fun _ => false) = majoritySuccess 0 3 (fun _ => false) :=
  (c2_hardcoded_threshold 0 3 (fun _ => false)).2.2 rfl

/-- C8 (code_bug): the masterless dispatcher has no handler for
`get_all_entries`; the message falls through to the unknown-command error
response, so a booting peer's `_sync_with_peers` finds no `entries` field in
the reply and feeds zero records through its replicate handler. -/
theorem c8_get_all_entries_unhandled :
    mDispatchRoute "get_all_entries" =
      MRoute.unknownCommand "error" "Unknown command: get_all_entries" ∧
    syncRecordsOfResponse none = [] := by
  exact ⟨by decide, rfl⟩

theorem cget_eq_zero_of_not_mem (c : Clock) (n : Nat) (h : n ∉ c.map Prod.fst) :
    cget c n = 0 := by
  unfold cget
  rw [alookup_eq_none_of_not_mem_keys c n h]
  rfl

theorem cleqB_iff (a b : Clock) : cleqB a b = true ↔ ∀ n, cget a n ≤ cget b n := by
  unfold cleqB
  rw [List.all_eq_true]
  constructor
  · intro h n
    by_cases hn : n ∈ a.map Prod.fst ++ b.map Prod.fst
    · have := h n hn
      simpa using this
    · rw [List.mem_append] at hn
      push_neg at hn
      rw [cget_eq_zero_of_not_mem a n hn.1, cget_eq_zero_of_not_mem b n hn.2]
  · intro h x _
    simpa using h x

theorem cget_mergeClock : ∀ (other mine : Clock), NodupKeys other →
    ∀ n, cget (mergeClock mine other) n = max (cget mine n) (cget other n) := by
  intro other
  induction other with
  | nil =>
    intro mine _ n
    simp [mergeClock, cget, alookup]
  | cons p rest ih =>
    intro mine hn n
    unfold NodupKeys at hn
    simp only [List.map_cons, List.nodup_cons] at hn
    have step : mergeClock mine (p :: rest) =
        mergeClock (aupdate mine p.1 (max (cget mine p.1) p.2)) rest := rfl
    rw [step, ih _ hn.2]
    by_cases hnp : n = p.1
    · have h1 : cget (aupdate mine p.1 (max (cget mine p.1) p.2)) p.1 =
          max (cget mine p.1) p.2 := by
        unfold cget
        rw [alookup_aupdate_self]
        rfl
      have h2 : cget rest p.1 = 0 := cget_eq_zero_of_not_mem rest p.1 hn.1
      have h3 : cget (p :: rest) p.1 = p.2 := by
        simp [cget, alookup]
      rw [hnp, h1, h2, h3]
      omega
    · have h1 : cget (aupdate mine p.1 (max (cget mine p.1) p.2)) n = cget mine n := by
        unfold cget
        rw [alookup_aupdate_ne _ _ _ _ hnp]
      have h3 : cget (p :: rest) n = cget rest n := by
        have hpn : ¬ p.1 = n := fun hh => hnp hh.symm
        simp [cget, alookup, hpn]
      rw [h1, h3]

/-- C3 (confirmed): for an inbound replicate whose source component exceeds
the last-applied version from that source, the handler judges the incoming
and current clocks concurrent iff neither is componentwise `≤` the other
(components absent from both clocks are zero, so quantifying over all node
ids is the union-of-ids comparison); when concurrent it appends exactly one
conflict record and applies the entry iff the source node id is `≥` this
node's id; when not concurrent it applies unconditionally; afterwards the
local clock is the componentwise max of the two clocks and the last-applied
version from the source is the incoming component. -/
theorem c3_handle_replicate : ∀ (E : Type) (embedF : String → E) (node : MNode E)
    (incomingClock : Clock) (source : Nat) (entry : Entry),
    (alookup node.applied source).getD 0 < cget incomingClock source →
    NodupKeys incomingClock →
    ((isConcurrentB node.clock incomingClock = true ↔
      (¬ ∀ n, cget node.clock n ≤ cget incomingClock n) ∧
      (¬ ∀ n, cget incomingClock n ≤ cget node.clock n)) ∧
    (handleReplicate embedF node incomingClock source entry).conflicts =
      node.conflicts ++
        (if isConcurrentB node.clock incomingClock then
          [⟨source, entry, node.clock, incomingClock, "Merged concurrent write"⟩]
        else []) ∧
    (isConcurrentB node.clock incomingClock = true →
      (handleReplicate embedF node incomingClock source entry).store =
        (if node.nodeId ≤ source then applyReplicationLog embedF entry node.store
         else node.store)) ∧
    (isConcurrentB node.clock incomingClock = false →
      (handleReplicate embedF node incomingClock source entry).store =
        applyReplicationLog embedF entry node.store) ∧
    (∀ n, cget (handleReplicate embedF node incomingClock source entry).clock n =
      max (cget node.clock n) (cget incomingClock n)) ∧
    (alookup (handleReplicate embedF node incomingClock source entry).applied source).getD 0 =
      cget incomingClock source) := by
  intro E embedF node incomingClock source entry hlt hnk
  have hgate : ¬ cget incomingClock source ≤ (alookup node.applied source).getD 0 :=
    not_le.2 hlt
  have e1 := cleqB_iff node.clock incomingClock
  have e2 := cleqB_iff incomingClock node.clock
  refine ⟨?_, ?_, ?_, ?_, ?_, ?_⟩
  · constructor
    · intro hcc
      refine ⟨fun hall => ?_, fun hall => ?_⟩
      · rw [isConcurrentB, e1.2 hall] at hcc
        simp at hcc
      · rw [isConcurrentB, e2.2 hall] at hcc
        simp at hcc
    · rintro ⟨h1, h2⟩
      rw [isConcurrentB]
      rcases Bool.eq_false_or_eq_true (cleqB node.clock incomingClock) with ht | hf
      · exact absurd (e1.1 ht) h1
      · rcases Bool.eq_false_or_eq_true (cleqB incomingClock node.clock) with ht2 | hf2
        · exact absurd (e2.1 ht2) h2
        · rw [hf, hf2]
          rfl
  · unfold handleReplicate
    rw [if_neg hgate]
    cases hc : isConcurrentB node.clock incomingClock
    · simp [mergeAndMark]
    · simp [mergeAndMark]
  · intro hc
    unfold handleReplicate
    rw [if_neg hgate, if_pos hc]
    rfl
  · intro hc
    unfold handleReplicate
    rw [if_neg hgate, if_neg (by simp [hc])]
    rfl
  · intro n
    unfold handleReplicate
    rw [if_neg hgate]
    cases hc : isConcurrentB node.clock incomingClock
    · rw [if_neg Bool.false_ne_true]
      exact cget_mergeClock incomingClock _ hnk n
    · rw [if_pos rfl]
      exact cget_mergeClock incomingClock _ hnk n
  · unfold handleReplicate
    rw [if_neg hgate]
    cases hc : isConcurrentB node.clock incomingClock
    · rw [if_neg Bool.false_ne_true]
      unfold mergeAndMark
      rw [alookup_aupdate_self]
      rfl
    · rw [if_pos rfl]
      unfold mergeAndMark
      rw [alookup_aupdate_self]
      rfl

/-- Witness for C3: node 1 with clock `{0: 1}` receives a replicate from
source node 2 with clock `{2: 1}` (concurrent, source id wins); the handler
records the incoming version and merges the clocks. -/
theorem c3_witness :
    (alookup (handleReplicate (fun _ => (0 : Nat)) ⟨1, [(0, 1)], [], [], emptyKV Nat⟩
        [(2, 1)] 2 (Entry.set "k" "v")).applied 2).getD 0 = cget [(2, 1)] 2 ∧
    cget (handleReplicate (fun _ => (0 : Nat)) ⟨1, [(0, 1)], [], [], emptyKV Nat⟩
        [(2, 1)] 2 (Entry.set "k" "v")).clock 0 = max (cget [(0, 1)] 0) (cget [(2, 1)] 0) :=
  ⟨(c3_handle_replicate Nat (fun _ => (0 : Nat)) ⟨1, [(0, 1)], [], [], emptyKV Nat⟩
      [(2, 1)] 2 (Entry.set "k" "v") (by decide) (by decide)).2.2.2.2.2,
   (c3_handle_replicate Nat (fun _ => (0 : Nat)) ⟨1, [(0, 1)], [], [], emptyKV Nat⟩
      [(2, 1)] 2 (Entry.set "k" "v") (by decide) (by decide)).2.2.2.2.1 0⟩

theorem perm_insertD (x : String × ℚ) : ∀ l : List (String × ℚ),
    List.Perm (insertD x l) (x :: l) := by
  intro l
  induction l with
  | nil => exact List.Perm.refl _
  | cons y rest ih =>
    unfold insertD
    by_cases h : y.2 < x.2
    · rw [if_pos h]
    · rw [if_neg h]
      exact (List.Perm.cons y ih).trans (List.Perm.swap x y rest)

theorem pairwise_insertD (x : String × ℚ) :
    ∀ l : List (String × ℚ), List.Pairwise (fun a b => b.2 ≤ a.2) l →
    List.Pairwise (fun a b => b.2 ≤ a.2) (insertD x l) := by
  intro l
  induction l with
  | nil =>
    intro _
    exact List.pairwise_singleton _ _
  | cons y rest ih =>
    intro h
    rw [List.pairwise_cons] at h
    unfold insertD
    by_cases hlt : y.2 < x.2
    · rw [if_pos hlt, List.pairwise_cons]
      refine ⟨fun z hz => ?_, List.pairwise_cons.2 h⟩
      rcases List.mem_cons.1 hz with h1 | h1
      · rw [h1]
        exact le_of_lt hlt
      · exact (h.1 z h1).trans (le_of_lt hlt)
    · rw [if_neg hlt, List.pairwise_cons]
      refine ⟨fun z hz => ?_, ih h.2⟩
      rcases List.mem_cons.1 ((perm_insertD x rest).mem_iff.1 hz) with h1 | h1
      · rw [h1]
        exact not_lt.1 hlt
      · exact h.1 z h1

theorem perm_sortD_aux : ∀ (l acc : List (String × ℚ)),
    List.Perm (l.foldl (fun a x => insertD x a) acc) (l ++ acc) := by
  intro l
  induction l with
  | nil => intro acc; exact List.Perm.refl _
  | cons x xs ih =>
    intro acc
    simp only [List.foldl_cons, List.cons_append]
    have h1 := ih (insertD x acc)
    have h2 : List.Perm (xs ++ insertD x acc) (xs ++ (x :: acc)) :=
      List.Perm.append_left xs (perm_insertD x acc)
    have h3 : List.Perm (xs ++ (x :: acc)) (x :: (xs ++ acc)) := List.perm_middle
    exact (h1.trans h2).trans h3

theorem perm_sortD (l : List (String × ℚ)) : List.Perm (sortD l) l := by
  have h := perm_sortD_aux l []
  rw [List.append_nil] at h
  exact h

theorem pairwise_sortD_aux : ∀ (l acc : List (String × ℚ)),
    List.Pairwise (fun a b => b.2 ≤ a.2) acc →
    List.Pairwise (fun a b => b.2 ≤ a.2) (l.foldl (fun a x => insertD x a) acc) := by
  intro l
  induction l with
  | nil => intro acc h; exact h
  | cons x xs ih =>
    intro acc h
    simp only [List.foldl_cons]
    exact ih _ (pairwise_insertD x acc h)

theorem pairwise_sortD (l : List (String × ℚ)) :
    List.Pairwise (fun a b => b.2 ≤ a.2) (sortD l) :=
  pairwise_sortD_aux l [] List.Pairwise.nil

theorem insertD_all_ge (x : String × ℚ) : ∀ l : List (String × ℚ),
    (∀ b ∈ l, ¬ b.2 < x.2) → insertD x l = l ++ [x] := by
  intro l
  induction l with
  | nil => intro _; rfl
  | cons y rest ih =>
    intro h
    unfold insertD
    rw [if_neg (h y (List.mem_cons_self y rest))]
    rw [ih (fun b hb => h b (List.mem_cons_of_mem y hb))]
    rfl

theorem sortD_aux_all_eq : ∀ (l acc : List (String × ℚ)),
    (∀ p ∈ l, ∀ q ∈ acc, ¬ q.2 < p.2) → (∀ p ∈ l, ∀ q ∈ l, ¬ q.2 < p.2) →
    l.foldl (fun a x => insertD x a) acc = acc ++ l := by
  intro l
  induction l with
  | nil =>
    intro acc _ _
    rw [List.append_nil]
    rfl
  | cons x xs ih =>
    intro acc h1 h2
    simp only [List.foldl_cons]
    rw [insertD_all_ge x acc (h1 x (List.mem_cons_self x xs))]
    rw [ih (acc ++ [x]) ?side1 ?side2]
    · rw [List.append_assoc]
      rfl
    case side1 =>
      intro p hp q hq
      rcases List.mem_append.1 hq with hq1 | hq1
      · exact h1 p (List.mem_cons_of_mem x hp) q hq1
      · rw [List.mem_singleton.1 hq1]
        exact h2 p (List.mem_cons_of_mem x hp) x (List.mem_cons_self x xs)
    case side2 =>
      intro p hp q hq
      exact h2 p (List.mem_cons_of_mem x hp) q (List.mem_cons_of_mem x hq)

theorem sortD_all_eq (l : List (String × ℚ))
    (h : ∀ p ∈ l, ∀ q ∈ l, p.2 = q.2) : sortD l = l := by
  have h0 := sortD_aux_all_eq l [] (by intro p _ q hq; cases hq)
    (fun p hp q hq => by rw [h p hp q hq]; exact lt_irrefl _)
  simpa using h0

theorem foldl_add_map_sum (f : String → ℚ) : ∀ (l : List String) (a : ℚ),
    l.foldl (fun s w => s + f w) a = a + (l.map f).sum := by
  intro l
  induction l with
  | nil => intro a; simp
  | cons x xs ih =>
    intro a
    simp only [List.foldl_cons, List.map_cons, List.sum_cons]
    rw [ih]
    ring

theorem fts_term_eq {E : Type} (idx : IndexSt E) (logFn : ℚ → ℚ) (w k : String) :
    tfScore idx w k * idfScore logFn idx w =
    (((alookup ((alookup idx.inverted w).getD []) k).getD 0 : ℚ) /
        (((alookup idx.forward k).getD []).length : ℚ)) *
      logFn (((idx.docCount : ℚ) + 1) / ((dfCount idx w : ℚ) + 1)) := by
  unfold tfScore idfScore
  by_cases hdf : dfCount idx w = 0
  · have hpl : (alookup idx.inverted w).getD [] = [] := by
      unfold dfCount at hdf
      exact List.length_eq_zero.1 hdf
    rw [if_pos hdf, hpl]
    simp [alookup]
  · rw [if_neg hdf]
    by_cases hw : (alookup idx.forward k).getD [] = []
    · rw [if_pos hw, hw]
      simp
    · rw [if_neg hw]

/-- C6 (confirmed): `full_text_search` returns `[]` on a query with no
tokens; its per-key score equals the claimed formula
`Σ_t tf(t,key)·idf(t)` with `tf = count/|tokens(key)|` and
`idf = ln((N+1)/(df+1))` (`ftsScoreSpec`, written from the spec's words); a
key is a candidate iff some query token's inverted posting contains it; and
every returned pair is a candidate carrying the claimed score. -/
theorem c6_tfidf_scoring : ∀ (E : Type) (idx : IndexSt E) (logFn : ℚ → ℚ)
    (order : List String) (q : String) (topK : Nat),
    (tokenize q = [] → fullTextSearch logFn order idx q topK = []) ∧
    (∀ k, ftsScore logFn idx q k = ftsScoreSpec logFn idx q k) ∧
    (∀ k, isCandidate idx q k ↔
      ∃ w ∈ tokenize q, (alookup ((alookup idx.inverted w).getD []) k).isSome) ∧
    ((∀ k, k ∈ order ↔ isCandidate idx q k) →
      ∀ p ∈ fullTextSearch logFn order idx q topK,
        isCandidate idx q p.1 ∧ p.2 = ftsScoreSpec logFn idx q p.1) := by
  intro E idx logFn order q topK
  have hscore : ∀ k, ftsScore logFn idx q k = ftsScoreSpec logFn idx q k := by
    intro k
    unfold ftsScore ftsScoreSpec
    rw [foldl_add_map_sum, zero_add]
    congr 1
    apply List.map_congr_left
    intro w _
    exact fts_term_eq idx logFn w k
  refine ⟨?_, hscore, ?_, ?_⟩
  · intro h
    unfold fullTextSearch
    rw [if_pos h]
  · intro k
    unfold isCandidate
    constructor
    · rintro ⟨w, hw, hk⟩
      exact ⟨w, hw, (isSome_alookup_iff_mem_keys _ _).2 hk⟩
    · rintro ⟨w, hw, hk⟩
      exact ⟨w, hw, (isSome_alookup_iff_mem_keys _ _).1 hk⟩
  · intro hOrder p hp
    unfold fullTextSearch at hp
    by_cases htok : tokenize q = []
    · rw [if_pos htok] at hp
      cases hp
    · rw [if_neg htok] at hp
      have hp2 : p ∈ sortD (order.map (fun k => (k, ftsScore logFn idx q k))) :=
        List.take_subset topK _ hp
      have hp3 : p ∈ order.map (fun k => (k, ftsScore logFn idx q k)) :=
        (perm_sortD _).mem_iff.1 hp2
      rcases List.mem_map.1 hp3 with ⟨k, hk, hpk⟩
      rw [← hpk]
      exact ⟨(hOrder k).1 hk, hscore k⟩

theorem cIdx7_score_a : ftsScore id cIdx7 "x" "a" = 1 := by
  unfold ftsScore
  have ht : tokenize "x" = ["x"] := by decide
  rw [ht]
  simp only [List.foldl_cons, List.foldl_nil]
  have h1 : tfScore cIdx7 "x" "a" = 1 := by
    unfold tfScore
    have hw : (alookup cIdx7.forward "a").getD [] = ["x"] := by decide
    rw [hw]
    have hc : (alookup ((alookup cIdx7.inverted "x").getD []) "a").getD 0 = 1 := by decide
    rw [hc]
    norm_num
  have h2 : idfScore id cIdx7 "x" = 1 := by
    unfold idfScore
    have hd : dfCount cIdx7 "x" = 2 := by decide
    rw [hd]
    have hdoc : cIdx7.docCount = 2 := by decide
    rw [hdoc]
    norm_num
  rw [h1, h2]
  norm_num

theorem cIdx7_score_b : ftsScore id cIdx7 "x" "b" = 1 := by
  unfold ftsScore
  have ht : tokenize "x" = ["x"] := by decide
  rw [ht]
  simp only [List.foldl_cons, List.foldl_nil]
  have h1 : tfScore cIdx7 "x" "b" = 1 := by
    unfold tfScore
    have hw : (alookup cIdx7.forward "b").getD [] = ["x"] := by decide
    rw [hw]
    have hc : (alookup ((alookup cIdx7.inverted "x").getD []) "b").getD 0 = 1 := by decide
    rw [hc]
    norm_num
  have h2 : idfScore id cIdx7 "x" = 1 := by
    unfold idfScore
    have hd : dfCount cIdx7 "x" = 2 := by decide
    rw [hd]
    have hdoc : cIdx7.docCount = 2 := by decide
    rw [hdoc]
    norm_num
  rw [h1, h2]
  norm_num

theorem cIdx7_order_iff : ∀ k, k ∈ (["a", "b"] : List String) ↔ isCandidate cIdx7 "x" k := by
  intro k
  unfold isCandidate
  have ht : tokenize "x" = ["x"] := by decide
  rw [ht]
  have hkeys : ((alookup cIdx7.inverted "x").getD []).map Prod.fst = ["a", "b"] := by decide
  constructor
  · intro hk
    refine ⟨"x", List.mem_cons_self "x" [], ?_⟩
    rw [hkeys]
    exact hk
  · rintro ⟨w, hw, hk⟩
    have hw' : w = "x" := List.mem_singleton.1 hw
    subst hw'
    rw [hkeys] at hk
    exact hk

theorem pair_ones_all_eq (s t : String) :
    ∀ p ∈ [(s, (1 : ℚ)), (t, 1)], ∀ q ∈ [(s, (1 : ℚ)), (t, 1)], p.2 = q.2 := by
  intro p hp q hq
  have hp2 : p.2 = 1 := by
    rcases List.mem_cons.1 hp with h | h
    · rw [h]
    · rw [List.mem_singleton.1 h]
  have hq2 : q.2 = 1 := by
    rcases List.mem_cons.1 hq with h | h
    · rw [h]
    · rw [List.mem_singleton.1 h]
  rw [hp2, hq2]

theorem cIdx7_fts_ab : fullTextSearch id ["a", "b"] cIdx7 "x" 10 = [("a", 1), ("b", 1)] := by
  unfold fullTextSearch
  rw [if_neg (by decide : ¬ tokenize "x" = [])]
  simp only [List.map_cons, List.map_nil]
  rw [cIdx7_score_a, cIdx7_score_b]
  rw [sortD_all_eq _ (pair_ones_all_eq "a" "b")]
  rfl

theorem cIdx7_fts_ba : fullTextSearch id ["b", "a"] cIdx7 "x" 10 = [("b", 1), ("a", 1)] := by
  unfold fullTextSearch
  rw [if_neg (by decide : ¬ tokenize "x" = [])]
  simp only [List.map_cons, List.map_nil]
  rw [cIdx7_score_b, cIdx7_score_a]
  rw [sortD_all_eq _ (pair_ones_all_eq "b" "a")]
  rfl

/-- Witness for C6: a tokenless query returns the empty list, and on the
two-document index the returned pair for key `a` is a candidate scored by the
claimed formula. -/
theorem c6_witness :
    fullTextSearch id [] cIdx7 "!" 10 = [] ∧
    (isCandidate cIdx7 "x" "a" ∧ (1 : ℚ) = ftsScoreSpec id cIdx7 "x" "a") :=
  ⟨(c6_tfidf_scoring Unit cIdx7 id [] "!" 10).1 (by decide),
   (c6_tfidf_scoring Unit cIdx7 id ["a", "b"] "x" 10).2.2.2 cIdx7_order_iff ("a", 1)
     (by
       rw [cIdx7_fts_ab]
       exact List.mem_cons_self _ _)⟩

/-- C7 (counterexample): keys `a` then `b` were indexed in that order and
carry identical values, hence equal scores for query `x`; enumerating the
candidate set as `[b, a]` — a legitimate iteration order of a Python `set`,
whose iteration order is unspecified — makes `full_text_search` return `b`
before `a`: the tie is broken by the set's iteration order, not by the
claimed insertion order of the keys into the index. -/
theorem c7_counterexample :
    ftsScore id cIdx7 "x" "a" = ftsScore id cIdx7 "x" "b" ∧
    cIdx7.forward.map Prod.fst = ["a", "b"] ∧
    (["b", "a"] : List String).Nodup ∧
    isCandidate cIdx7 "x" "a" ∧ isCandidate cIdx7 "x" "b" ∧
    fullTextSearch id ["b", "a"] cIdx7 "x" 10 = [("b", 1), ("a", 1)] := by
  refine ⟨?_, by decide, by decide, by decide, by decide, cIdx7_fts_ba⟩
  rw [cIdx7_score_a, cIdx7_score_b]

/-- C7 (amended): for every enumeration of the candidate set,
`full_text_search` returns the stable descending sort of the scored
candidates truncated to the first `k`; the result is sorted by descending
score with length `min k (number of candidates)`, and when all candidates'
scores tie the output is the first `k` of the enumeration order — the
candidate-set iteration order, which is not guaranteed to be the insertion
order of the keys into the index. -/
theorem c7_rank_order : ∀ (E : Type) (idx : IndexSt E) (logFn : ℚ → ℚ)
    (order : List String) (q : String) (topK : Nat),
    tokenize q ≠ [] → (∀ k, k ∈ order ↔ isCandidate idx q k) →
    (fullTextSearch logFn order idx q topK =
      (sortD (order.map (fun k => (k, ftsScore logFn idx q k)))).take topK ∧
    List.Pairwise (fun a b => b.2 ≤ a.2) (fullTextSearch logFn order idx q topK) ∧
    (fullTextSearch logFn order idx q topK).length = min topK order.length ∧
    ((∀ p ∈ order.map (fun k => (k, ftsScore logFn idx q k)),
        ∀ p' ∈ order.map (fun k => (k, ftsScore logFn idx q k)), p.2 = p'.2) →
      fullTextSearch logFn order idx q topK =
        (order.map (fun k => (k, ftsScore logFn idx q k))).take topK)) := by
  intro E idx logFn order q topK htok _
  have hdef : fullTextSearch logFn order idx q topK =
      (sortD (order.map (fun k => (k, ftsScore logFn idx q k)))).take topK := by
    unfold fullTextSearch
    rw [if_neg htok]
  refine ⟨hdef, ?_, ?_, ?_⟩
  · rw [hdef]
    exact List.Pairwise.sublist (List.take_sublist topK _) (pairwise_sortD _)
  · rw [hdef, List.length_take, (perm_sortD _).length_eq, List.length_map]
  · intro hall
    rw [hdef, sortD_all_eq _ hall]

/-- Witness for C7's amended statement: on the two-candidate index with
enumeration `[a, b]`, the result length is `min 10 2`. -/
theorem c7_witness :
    (fullTextSearch id ["a", "b"] cIdx7 "x" 10).length =
      min 10 (["a", "b"] : List String).length :=
  (c7_rank_order Unit cIdx7 id ["a", "b"] "x" 10 (by decide) cIdx7_order_iff).2.2.1

theorem foldl_add_sq_sum : ∀ (l : List ℝ) (a : ℝ),
    l.foldl (fun acc x => acc + x * x) a = a + (l.map (fun x => x * x)).sum := by
  intro l
  induction l with
  | nil => intro a; simp
  | cons x xs ih =>
    intro a
    simp only [List.foldl_cons, List.map_cons, List.sum_cons]
    rw [ih]
    ring

theorem sumSq_nonneg : ∀ l : List ℝ, 0 ≤ (l.map (fun x => x * x)).sum := by
  intro l
  induction l with
  | nil => simp
  | cons x xs ih =>
    simp only [List.map_cons, List.sum_cons]
    exact add_nonneg (mul_self_nonneg x) ih

theorem sumSq_eq_zero_iff : ∀ l : List ℝ, (l.map (fun x => x * x)).sum = 0 ↔ ∀ x ∈ l, x = 0 := by
  intro l
  induction l with
  | nil => simp
  | cons x xs ih =>
    simp only [List.map_cons, List.sum_cons]
    rw [add_eq_zero_iff_of_nonneg (mul_self_nonneg x) (sumSq_nonneg xs)]
    rw [mul_self_eq_zero, ih]
    constructor
    · rintro ⟨h1, h2⟩ y hy
      rcases List.mem_cons.1 hy with h | h
      · rw [h]; exact h1
      · exact h2 y h
    · intro h
      exact ⟨h x (List.mem_cons_self x xs), fun y hy => h y (List.mem_cons_of_mem x hy)⟩

theorem sumSq_map_div (m : ℝ) : ∀ l : List ℝ,
    ((l.map (fun x => x / m)).map (fun x => x * x)).sum =
      ((l.map (fun x => x * x)).sum) / (m * m) := by
  intro l
  induction l with
  | nil => simp
  | cons x xs ih =>
    simp only [List.map_cons, List.sum_cons]
    rw [ih, div_mul_div_comm, div_add_div_same]

theorem length_bump (v : List Nat) (i : Nat) : (bump v i).length = v.length := by
  unfold bump
  exact List.length_set v i _

theorem countVec_length (s : String) : (countVec s).length = 128 := by
  unfold countVec
  have h : ∀ (ts : List (List Char)) (v : List Nat),
      (ts.foldl (fun v t => bump v (trigramIndex t)) v).length = v.length := by
    intro ts
    induction ts with
    | nil => intro v; rfl
    | cons t rest ih =>
      intro v
      simp only [List.foldl_cons]
      rw [ih, length_bump]
  rw [h, List.length_replicate]

/-- C9 (confirmed): `_embed` lowercases the text, bumps the vector component
`md5(trigram UTF-8 bytes) mod 128` for each length-3 substring, and normalizes
to unit Euclidean length: it coincides with the embedding described by the
spec's words, a zero count vector yields the zero vector, a nonzero count
vector yields a vector of squared-norm 1, and equal inputs yield identical
vectors. -/
theorem c9_embed_semantics : ∀ s t : String,
    (embed s = embedSpec s ∧
    (countVec s = List.replicate 128 0 → embed s = List.replicate 128 (0 : ℝ)) ∧
    (countVec s ≠ List.replicate 128 0 → ((embed s).map (fun x => x * x)).sum = 1) ∧
    (s = t → embed s = embed t)) := by
  intro s t
  have hcv : countVecSpec s = countVec s := rfl
  have hfold : ((countVec s).map (fun (c : Nat) => (c : ℝ))).foldl (fun acc x => acc + x * x) 0 =
      (((countVec s).map (fun (c : Nat) => (c : ℝ))).map (fun x => x * x)).sum := by
    rw [foldl_add_sq_sum, zero_add]
  refine ⟨?_, ?_, ?_, ?_⟩
  · unfold embed embedSpec
    rw [hcv, hfold]
    by_cases h : Real.sqrt ((((countVec s).map (fun (c : Nat) => (c : ℝ))).map
        (fun x => x * x)).sum) = 0
    · rw [if_pos h, if_neg (by rw [h]; exact lt_irrefl 0)]
    · rw [if_neg h,
        if_pos (lt_of_le_of_ne (Real.sqrt_nonneg _) (Ne.symm h))]
  · intro h
    unfold embed
    rw [h]
    have hmap : (List.replicate 128 (0 : ℕ)).map (fun (c : Nat) => (c : ℝ)) =
        List.replicate 128 (0 : ℝ) := by
      rw [List.map_replicate]
      simp
    rw [hmap]
    have hz : (List.replicate 128 (0 : ℝ)).foldl (fun acc x => acc + x * x) 0 = 0 := by
      rw [foldl_add_sq_sum, zero_add]
      rw [List.map_replicate]
      simp
    rw [hz, Real.sqrt_zero, if_neg (lt_irrefl 0)]
  · intro h
    have hlen : (countVec s).length = 128 := countVec_length s
    have hex : ∃ c ∈ countVec s, c ≠ 0 := by
      by_contra hno
      push_neg at hno
      exact h (List.eq_replicate_iff.2 ⟨hlen, hno⟩)
    have hS_pos : 0 < (((countVec s).map (fun (c : Nat) => (c : ℝ))).map (fun x => x * x)).sum := by
      rcases hex with ⟨c, hc, hc0⟩
      have h0 := sumSq_nonneg ((countVec s).map (fun (c : Nat) => (c : ℝ)))
      have hne : (((countVec s).map (fun (c : Nat) => (c : ℝ))).map (fun x => x * x)).sum ≠ 0 := by
        intro h0'
        have hall := (sumSq_eq_zero_iff ((countVec s).map (fun (c : Nat) => (c : ℝ)))).1 h0'
        have hcast : ((c : ℝ)) = 0 :=
          hall _ (List.mem_map_of_mem (fun (c : Nat) => (c : ℝ)) hc)
        exact hc0 (Nat.cast_eq_zero.1 hcast)
      exact lt_of_le_of_ne h0 (Ne.symm hne)
    have hmag_pos : 0 < Real.sqrt ((((countVec s).map (fun (c : Nat) => (c : ℝ))).map
        (fun x => x * x)).sum) := Real.sqrt_pos.2 hS_pos
    unfold embed
    rw [hfold, if_pos hmag_pos]
    rw [sumSq_map_div]
    rw [Real.mul_self_sqrt (le_of_lt hS_pos)]
    exact div_self (ne_of_gt hS_pos)
  · intro h
    rw [h]

/-- Witness for C9: the empty text has an all-zero count vector (it has no
trigrams), so its embedding is the zero vector; and the embedding of a fixed
text is deterministic. -/
theorem c9_witness :
    embed "" = List.replicate 128 (0 : ℝ) ∧ embed "ab" = embed "ab" :=
  ⟨(c9_embed_semantics "" "").2.1 (by decide),
   (c9_embed_semantics "ab" "ab").2.2.2 rfl⟩

theorem aerase_sublist {α β : Type} [DecidableEq α] (l : List (α × β)) (k : α) :
    List.Sublist (aerase l k) l := by
  induction l with
  | nil => simp [aerase]
  | cons p rest ih =>
    by_cases h : p.1 = k
    · simp only [aerase, h, if_pos]
      exact List.sublist_cons_self p rest
    · simp only [aerase, h, if_neg]
      exact ih.cons₂ p

theorem mem_of_mem_aerase {α β : Type} [DecidableEq α] {l : List (α × β)} {k : α}
    {wp : α × β} (h : wp ∈ aerase l k) : wp ∈ l :=
  (aerase_sublist l k).subset h

theorem mem_aerase_ne_key {α β : Type} [DecidableEq α] {l : List (α × β)} {k : α}
    {wp : α × β} (hn : NodupKeys l) (h : wp ∈ aerase l k) : wp.1 ≠ k := by
  intro heq
  have h2 : wp.1 ∈ (aerase l k).map Prod.fst := List.mem_map_of_mem Prod.fst h
  rw [heq] at h2
  have h1 : (alookup (aerase l k) k).isSome := (isSome_alookup_iff_mem_keys _ _).2 h2
  rw [alookup_aerase_self l k hn] at h1
  simp at h1

theorem mem_aupdate_cases {α β : Type} [DecidableEq α] {l : List (α × β)} {k : α} {v : β}
    {wp : α × β} (hn : NodupKeys l) (h : wp ∈ aupdate l k v) :
    wp = (k, v) ∨ (wp ∈ l ∧ wp.1 ≠ k) := by
  induction l with
  | nil =>
    left
    simpa [aupdate] using h
  | cons p rest ih =>
    unfold NodupKeys at hn
    simp only [List.map_cons, List.nodup_cons] at hn
    by_cases hpk : p.1 = k
    · rw [aupdate, if_pos hpk] at h
      rcases List.mem_cons.1 h with h1 | h1
      · exact Or.inl h1
      · refine Or.inr ⟨List.mem_cons_of_mem p h1, fun heq => ?_⟩
        apply hn.1
        rw [hpk, ← heq]
        exact List.mem_map_of_mem Prod.fst h1
    · rw [aupdate, if_neg hpk] at h
      rcases List.mem_cons.1 h with h1 | h1
      · exact Or.inr ⟨by rw [h1]; exact List.mem_cons_self p rest, by rw [h1]; exact hpk⟩
      · rcases ih hn.2 h1 with h2 | h2
        · exact Or.inl h2
        · exact Or.inr ⟨List.mem_cons_of_mem p h2.1, h2.2⟩

theorem not_mem_keys_of_alookup_eq_none {α β : Type} [DecidableEq α] {l : List (α × β)}
    {k : α} (h : alookup l k = none) : k ∉ l.map Prod.fst := by
  intro hmem
  have h1 := (isSome_alookup_iff_mem_keys l k).2 hmem
  rw [h] at h1
  simp at h1

theorem aerase_eq_of_not_mem {α β : Type} [DecidableEq α] (l : List (α × β)) (k : α)
    (h : k ∉ l.map Prod.fst) : aerase l k = l := by
  induction l with
  | nil => rfl
  | cons p rest ih =>
    simp only [List.map_cons, List.mem_cons] at h
    push_neg at h
    rw [aerase, if_neg (Ne.symm h.1), ih h.2]

theorem nk_removeKeyFromPosting (inv : List (String × List (String × Nat))) (w key : String)
    (hn : NodupKeys inv) (hp : ∀ wp ∈ inv, NodupKeys wp.2) :
    NodupKeys (removeKeyFromPosting inv w key) ∧
    (∀ wp ∈ removeKeyFromPosting inv w key, NodupKeys wp.2) := by
  unfold removeKeyFromPosting
  split
  · exact ⟨hn, hp⟩
  case _ pl heq =>
    have hplnk : NodupKeys pl := hp (w, pl) (mem_of_alookup_eq_some heq)
    split
    · split
      · exact ⟨nodupKeys_aerase inv w hn, fun wp hwp => hp wp (mem_of_mem_aerase hwp)⟩
      · refine ⟨nodupKeys_aupdate inv w _ hn, fun wp hwp => ?_⟩
        rcases mem_aupdate_cases hn hwp with h1 | h1
        · rw [h1]
          exact nodupKeys_aerase pl key hplnk
        · exact hp wp h1.1
    · exact ⟨hn, hp⟩

theorem nk_removeFold (key : String) : ∀ (words : List String)
    (inv : List (String × List (String × Nat))), NodupKeys inv →
    (∀ wp ∈ inv, NodupKeys wp.2) →
    NodupKeys (words.foldl (fun i w => removeKeyFromPosting i w key) inv) ∧
    (∀ wp ∈ words.foldl (fun i w => removeKeyFromPosting i w key) inv, NodupKeys wp.2) := by
  intro words
  induction words with
  | nil => intro inv hn hp; exact ⟨hn, hp⟩
  | cons w0 ws ih =>
    intro inv hn hp
    simp only [List.foldl_cons]
    have hstep := nk_removeKeyFromPosting inv w0 key hn hp
    exact ih _ hstep.1 hstep.2

theorem mem_removeKeyFromPosting_step (inv : List (String × List (String × Nat)))
    (w0 key : String) (hn : NodupKeys inv) (hp : ∀ wp ∈ inv, NodupKeys wp.2) :
    ∀ wp ∈ removeKeyFromPosting inv w0 key, ∀ kc ∈ wp.2,
      (∃ wp0 ∈ inv, wp0.1 = wp.1 ∧ kc ∈ wp0.2) ∧ ¬(kc.1 = key ∧ wp.1 = w0) := by
  unfold removeKeyFromPosting
  split
  case _ heq =>
    intro wp hwp kc hkc
    refine ⟨⟨wp, hwp, rfl, hkc⟩, ?_⟩
    rintro ⟨-, hw⟩
    have h1 : (alookup inv w0).isSome := by
      rw [isSome_alookup_iff_mem_keys, ← hw]
      exact List.mem_map_of_mem Prod.fst hwp
    rw [heq] at h1
    simp at h1
  case _ pl heq =>
    have hplnk : NodupKeys pl := hp (w0, pl) (mem_of_alookup_eq_some heq)
    split
    case _ hsome =>
      split
      case _ hempty =>
        intro wp hwp kc hkc
        have hmem := mem_of_mem_aerase hwp
        have hne := mem_aerase_ne_key hn hwp
        exact ⟨⟨wp, hmem, rfl, hkc⟩, fun hand => hne hand.2⟩
      case _ hempty =>
        intro wp hwp kc hkc
        rcases mem_aupdate_cases hn hwp with h1 | h1
        · have hwp1 : wp.1 = w0 := by rw [h1]
          have hkc2 : kc ∈ aerase pl key := by
            have : wp.2 = aerase pl key := by rw [h1]
            rwa [this] at hkc
          refine ⟨⟨(w0, pl), mem_of_alookup_eq_some heq, by rw [hwp1], mem_of_mem_aerase hkc2⟩, ?_⟩
          rintro ⟨hkey, -⟩
          exact mem_aerase_ne_key hplnk hkc2 hkey
        · exact ⟨⟨wp, h1.1, rfl, hkc⟩, fun hand => h1.2 hand.2⟩
    case _ hnotsome =>
      intro wp hwp kc hkc
      refine ⟨⟨wp, hwp, rfl, hkc⟩, ?_⟩
      rintro ⟨hkey, hw⟩
      obtain ⟨w', pl'⟩ := wp
      have hl : alookup inv w' = some pl' := alookup_eq_some_of_mem hn hwp
      have hw' : w' = w0 := hw
      rw [hw', heq] at hl
      have hpl : pl' = pl := by
        injection hl with he
        exact he.symm
      apply hnotsome
      rw [isSome_alookup_iff_mem_keys, ← hkey]
      apply List.mem_map_of_mem Prod.fst
      rw [← hpl]
      exact hkc

theorem mem_removeFold (key : String) : ∀ (words : List String)
    (inv : List (String × List (String × Nat))), NodupKeys inv →
    (∀ wp ∈ inv, NodupKeys wp.2) →
    ∀ wp ∈ words.foldl (fun i w => removeKeyFromPosting i w key) inv, ∀ kc ∈ wp.2,
      (∃ wp0 ∈ inv, wp0.1 = wp.1 ∧ kc ∈ wp0.2) ∧ ¬(kc.1 = key ∧ wp.1 ∈ words) := by
  intro words
  induction words with
  | nil =>
    intro inv _ _ wp hwp kc hkc
    refine ⟨⟨wp, hwp, rfl, hkc⟩, ?_⟩
    rintro ⟨-, hw⟩
    cases hw
  | cons w0 ws ih =>
    intro inv hn hp wp hwp kc hkc
    simp only [List.foldl_cons] at hwp
    have hstep := nk_removeKeyFromPosting inv w0 key hn hp
    have hih := ih _ hstep.1 hstep.2 wp hwp kc hkc
    rcases hih with ⟨⟨wp0, hwp0, heq0, hkc0⟩, hnot0⟩
    have hs := mem_removeKeyFromPosting_step inv w0 key hn hp wp0 hwp0 kc hkc0
    rcases hs with ⟨⟨wp1, hwp1, heq1, hkc1⟩, hnot1⟩
    refine ⟨⟨wp1, hwp1, heq1.trans heq0, hkc1⟩, ?_⟩
    rintro ⟨hkey, hw⟩
    rcases List.mem_cons.1 hw with h1 | h1
    · exact hnot1 ⟨hkey, heq0.trans h1⟩
    · exact hnot0 ⟨hkey, h1⟩

theorem nk_incPosting (inv : List (String × List (String × Nat))) (w key : String)
    (hn : NodupKeys inv) (hp : ∀ wp ∈ inv, NodupKeys wp.2) :
    NodupKeys (incPosting inv w key) ∧
    (∀ wp ∈ incPosting inv w key, NodupKeys wp.2) := by
  unfold incPosting
  refine ⟨nodupKeys_aupdate inv w _ hn, fun wp hwp => ?_⟩
  rcases mem_aupdate_cases hn hwp with h1 | h1
  · rw [h1]
    have hplnk : NodupKeys ((alookup inv w).getD []) := by
      cases halp : alookup inv w with
      | none => simp [NodupKeys]
      | some pl0 => exact hp (w, pl0) (mem_of_alookup_eq_some halp)
    exact nodupKeys_aupdate _ key _ hplnk
  · exact hp wp h1.1

theorem nk_incFold (key : String) : ∀ (words : List String)
    (inv : List (String × List (String × Nat))), NodupKeys inv →
    (∀ wp ∈ inv, NodupKeys wp.2) →
    NodupKeys (words.foldl (fun i w => incPosting i w key) inv) ∧
    (∀ wp ∈ words.foldl (fun i w => incPosting i w key) inv, NodupKeys wp.2) := by
  intro words
  induction words with
  | nil => intro inv hn hp; exact ⟨hn, hp⟩
  | cons w0 ws ih =>
    intro inv hn hp
    simp only [List.foldl_cons]
    have hstep := nk_incPosting inv w0 key hn hp
    exact ih _ hstep.1 hstep.2

theorem mem_incPosting_step (inv : List (String × List (String × Nat)))
    (w0 key : String) (hn : NodupKeys inv) (hp : ∀ wp ∈ inv, NodupKeys wp.2) :
    ∀ wp ∈ incPosting inv w0 key, ∀ kc ∈ wp.2,
      (kc.1 = key ∧ wp.1 = w0) ∨ (∃ wp0 ∈ inv, wp0.1 = wp.1 ∧ kc ∈ wp0.2) := by
  unfold incPosting
  intro wp hwp kc hkc
  rcases mem_aupdate_cases hn hwp with h1 | h1
  · have hwp1 : wp.1 = w0 := by rw [h1]
    have hplnk : NodupKeys ((alookup inv w0).getD []) := by
      cases halp : alookup inv w0 with
      | none => simp [NodupKeys]
      | some pl0 => exact hp (w0, pl0) (mem_of_alookup_eq_some halp)
    have hkc2 : kc ∈ aupdate ((alookup inv w0).getD [])
        key ((alookup ((alookup inv w0).getD []) key).getD 0 + 1) := by
      have h2 : wp.2 = aupdate ((alookup inv w0).getD [])
          key ((alookup ((alookup inv w0).getD []) key).getD 0 + 1) := by rw [h1]
      rwa [h2] at hkc
    rcases mem_aupdate_cases hplnk hkc2 with h3 | h3
    · exact Or.inl ⟨by rw [h3], hwp1⟩
    · cases halp : alookup inv w0 with
      | none =>
        rw [halp] at h3
        simp at h3
      | some pl0 =>
        refine Or.inr ⟨(w0, pl0), mem_of_alookup_eq_some halp, by rw [hwp1], ?_⟩
        have h4 := h3.1
        rw [halp] at h4
        exact h4
  · exact Or.inr ⟨wp, h1.1, rfl, hkc⟩

theorem mem_incFold (key : String) : ∀ (words : List String)
    (inv : List (String × List (String × Nat))), NodupKeys inv →
    (∀ wp ∈ inv, NodupKeys wp.2) →
    ∀ wp ∈ words.foldl (fun i w => incPosting i w key) inv, ∀ kc ∈ wp.2,
      (kc.1 = key ∧ wp.1 ∈ words) ∨ (∃ wp0 ∈ inv, wp0.1 = wp.1 ∧ kc ∈ wp0.2) := by
  intro words
  induction words with
  | nil =>
    intro inv _ _ wp hwp kc hkc
    exact Or.inr ⟨wp, hwp, rfl, hkc⟩
  | cons w0 ws ih =>
    intro inv hn hp wp hwp kc hkc
    simp only [List.foldl_cons] at hwp
    have hstep := nk_incPosting inv w0 key hn hp
    rcases ih _ hstep.1 hstep.2 wp hwp kc hkc with h1 | ⟨wp0, hwp0, heq0, hkc0⟩
    · exact Or.inl ⟨h1.1, List.mem_cons_of_mem w0 h1.2⟩
    · rcases mem_incPosting_step inv w0 key hn hp wp0 hwp0 kc hkc0 with h2 | ⟨wp1, hwp1, heq1, hkc1⟩
      · refine Or.inl ⟨h2.1, ?_⟩
        rw [← heq0, h2.2]
        exact List.mem_cons_self w0 ws
      · exact Or.inr ⟨wp1, hwp1, heq1.trans heq0, hkc1⟩

theorem invIdx_transport {E : Type} (embedF : String → E) (d1 d2 : KVMap) (idx : IndexSt E)
    (hn2 : NodupKeys d2) (hl : ∀ x, alookup d1 x = alookup d2 x)
    (h : InvIdx embedF d1 idx) : InvIdx embedF d2 idx := by
  obtain ⟨hnd, hnf, hni, hnp, hne, hpnk, h7, h8, h9, h10, h11⟩ := h
  refine ⟨hn2, hnf, hni, hnp, hne, hpnk, ?_, ?_, ?_, ?_, ?_⟩
  · rintro ⟨k, v⟩ hp
    have hlk : alookup d2 k = some v := alookup_eq_some_of_mem hn2 hp
    have hd1 : alookup d1 k = some v := by rw [hl k]; exact hlk
    exact h7 (k, v) (mem_of_alookup_eq_some hd1)
  · rintro ⟨k, ws⟩ hq
    have hsome : (alookup d1 k).isSome := h8 (k, ws) hq
    rwa [hl k] at hsome
  · rintro ⟨k, ph⟩ hq
    have hsome : (alookup d1 k).isSome := h9 (k, ph) hq
    rwa [hl k] at hsome
  · rintro ⟨k, em⟩ hq
    have hsome : (alookup d1 k).isSome := h10 (k, em) hq
    rwa [hl k] at hsome
  · intro wp hwp kc hkc
    obtain ⟨v, hv, hw⟩ := h11 wp hwp kc hkc
    exact ⟨v, by rw [← hl]; exact hv, hw⟩

theorem invIdx_key_absent {E : Type} (embedF : String → E) (d : KVMap) (idx : IndexSt E)
    (key : String) (h : InvIdx embedF d idx) (hd : alookup d key = none) :
    alookup idx.forward key = none ∧ alookup idx.phrases key = none ∧
    alookup idx.embeddings key = none ∧
    (∀ wp ∈ idx.inverted, ∀ kc ∈ wp.2, kc.1 ≠ key) := by
  obtain ⟨hnd, hnf, hni, hnp, hne, hpnk, h7, h8, h9, h10, h11⟩ := h
  refine ⟨?_, ?_, ?_, ?_⟩
  · cases halp : alookup idx.forward key with
    | none => rfl
    | some ws =>
      have h2 : (alookup d key).isSome := h8 (key, ws) (mem_of_alookup_eq_some halp)
      rw [hd] at h2
      simp at h2
  · cases halp : alookup idx.phrases key with
    | none => rfl
    | some ph =>
      have h2 : (alookup d key).isSome := h9 (key, ph) (mem_of_alookup_eq_some halp)
      rw [hd] at h2
      simp at h2
  · cases halp : alookup idx.embeddings key with
    | none => rfl
    | some em =>
      have h2 : (alookup d key).isSome := h10 (key, em) (mem_of_alookup_eq_some halp)
      rw [hd] at h2
      simp at h2
  · intro wp hwp kc hkc heq
    obtain ⟨v, hv, _⟩ := h11 wp hwp kc hkc
    rw [heq, hd] at hv
    cases hv

theorem invIdx_remove {E : Type} (embedF : String → E) (d : KVMap) (key : String)
    (idx : IndexSt E) (h : InvIdx embedF d idx) :
    InvIdx embedF (aerase d key) (removeInternal key idx) := by
  obtain ⟨hnd, hnf, hni, hnp, hne, hpnk, h7, h8, h9, h10, h11⟩ := h
  unfold removeInternal
  split
  case _ heqf =>
    have hdnone : alookup d key = none := by
      cases hd : alookup d key with
      | none => rfl
      | some v =>
        have hfw : alookup idx.forward key = some (tokenize v) :=
          (h7 (key, v) (mem_of_alookup_eq_some hd)).1
        rw [heqf] at hfw
        cases hfw
    rw [aerase_eq_of_not_mem d key (not_mem_keys_of_alookup_eq_none hdnone)]
    exact ⟨hnd, hnf, hni, hnp, hne, hpnk, h7, h8, h9, h10, h11⟩
  case _ ws heqf =>
    have hkd : (alookup d key).isSome := h8 (key, ws) (mem_of_alookup_eq_some heqf)
    obtain ⟨v, hv⟩ := Option.isSome_iff_exists.1 hkd
    have hws : ws = tokenize v := by
      have hfw := (h7 (key, v) (mem_of_alookup_eq_some hv)).1
      rw [heqf] at hfw
      injection hfw
    refine ⟨nodupKeys_aerase d key hnd, nodupKeys_aerase _ _ hnf,
      (nk_removeFold key ws idx.inverted hni hpnk).1, nodupKeys_aerase _ _ hnp,
      nodupKeys_aerase _ _ hne, (nk_removeFold key ws idx.inverted hni hpnk).2,
      ?_, ?_, ?_, ?_, ?_⟩
    · rintro ⟨k, vv⟩ hp
      have hmem : (k, vv) ∈ d := mem_of_mem_aerase hp
      have hkne : k ≠ key := mem_aerase_ne_key hnd hp
      have h77 := h7 (k, vv) hmem
      exact ⟨by rw [alookup_aerase_ne idx.forward key k hkne]; exact h77.1,
        by rw [alookup_aerase_ne idx.phrases key k hkne]; exact h77.2.1,
        by rw [alookup_aerase_ne idx.embeddings key k hkne]; exact h77.2.2⟩
    · rintro ⟨k, ws'⟩ hq
      have hkne : k ≠ key := mem_aerase_ne_key hnf hq
      have h88 : (alookup d k).isSome := h8 (k, ws') (mem_of_mem_aerase hq)
      rw [alookup_aerase_ne d key k hkne]
      exact h88
    · rintro ⟨k, ph⟩ hq
      have hkne : k ≠ key := mem_aerase_ne_key hnp hq
      have h99 : (alookup d k).isSome := h9 (k, ph) (mem_of_mem_aerase hq)
      rw [alookup_aerase_ne d key k hkne]
      exact h99
    · rintro ⟨k, em⟩ hq
      have hkne : k ≠ key := mem_aerase_ne_key hne hq
      have h1010 : (alookup d k).isSome := h10 (k, em) (mem_of_mem_aerase hq)
      rw [alookup_aerase_ne d key k hkne]
      exact h1010
    · intro wp hwp kc hkc
      rcases mem_removeFold key ws idx.inverted hni hpnk wp hwp kc hkc with
        ⟨⟨wp0, hwp0, heq0, hkc0⟩, hnot⟩
      obtain ⟨v0, hv0, hw0⟩ := h11 wp0 hwp0 kc hkc0
      have hkcne : kc.1 ≠ key := by
        intro hkey
        apply hnot
        refine ⟨hkey, ?_⟩
        rw [hkey] at hv0
        have hv0v : v0 = v := by
          rw [hv] at hv0
          injection hv0 with he
          exact he.symm
        rw [← heq0, hws, ← hv0v]
        exact hw0
      exact ⟨v0, by rw [alookup_aerase_ne d key kc.1 hkcne]; exact hv0,
        by rw [← heq0]; exact hw0⟩

theorem invIdx_add_fresh {E : Type} (embedF : String → E) (d : KVMap) (key value : String)
    (idx : IndexSt E) (h : InvIdx embedF d idx) (hd : alookup d key = none) :
    InvIdx embedF (aupdate d key value)
      ⟨(tokenize value).foldl (fun inv w => incPosting inv w key) idx.inverted,
       aupdate idx.forward key (tokenize value),
       idx.docCount + 1,
       aupdate idx.phrases key (lowerStr value),
       aupdate idx.embeddings key (embedF value)⟩ := by
  have habsent := invIdx_key_absent embedF d idx key h hd
  obtain ⟨hnd, hnf, hni, hnp, hne, hpnk, h7, h8, h9, h10, h11⟩ := h
  refine ⟨nodupKeys_aupdate d key value hnd, nodupKeys_aupdate _ _ _ hnf,
    (nk_incFold key (tokenize value) idx.inverted hni hpnk).1,
    nodupKeys_aupdate _ _ _ hnp, nodupKeys_aupdate _ _ _ hne,
    (nk_incFold key (tokenize value) idx.inverted hni hpnk).2, ?_, ?_, ?_, ?_, ?_⟩
  · rintro ⟨k, vv⟩ hp
    rcases mem_aupdate_cases hnd hp with h1 | h1
    · rw [Prod.mk.injEq] at h1
      rw [h1.1, h1.2]
      exact ⟨alookup_aupdate_self _ _ _, alookup_aupdate_self _ _ _,
        alookup_aupdate_self _ _ _⟩
    · have hkne : k ≠ key := h1.2
      have h77 := h7 (k, vv) h1.1
      exact ⟨by rw [alookup_aupdate_ne idx.forward key k _ hkne]; exact h77.1,
        by rw [alookup_aupdate_ne idx.phrases key k _ hkne]; exact h77.2.1,
        by rw [alookup_aupdate_ne idx.embeddings key k _ hkne]; exact h77.2.2⟩
  · rintro ⟨k, ws'⟩ hq
    rcases mem_aupdate_cases hnf hq with h1 | h1
    · rw [Prod.mk.injEq] at h1
      rw [h1.1, alookup_aupdate_self]
      rfl
    · rw [alookup_aupdate_ne d key k value h1.2]
      exact h8 (k, ws') h1.1
  · rintro ⟨k, ph⟩ hq
    rcases mem_aupdate_cases hnp hq with h1 | h1
    · rw [Prod.mk.injEq] at h1
      rw [h1.1, alookup_aupdate_self]
      rfl
    · rw [alookup_aupdate_ne d key k value h1.2]
      exact h9 (k, ph) h1.1
  · rintro ⟨k, em⟩ hq
    rcases mem_aupdate_cases hne hq with h1 | h1
    · rw [Prod.mk.injEq] at h1
      rw [h1.1, alookup_aupdate_self]
      rfl
    · rw [alookup_aupdate_ne d key k value h1.2]
      exact h10 (k, em) h1.1
  · intro wp hwp kc hkc
    rcases mem_incFold key (tokenize value) idx.inverted hni hpnk wp hwp kc hkc with
      h1 | ⟨wp0, hwp0, heq0, hkc0⟩
    · exact ⟨value, by rw [h1.1]; exact alookup_aupdate_self _ _ _, h1.2⟩
    · obtain ⟨v0, hv0, hw0⟩ := h11 wp0 hwp0 kc hkc0
      have hkcne : kc.1 ≠ key := habsent.2.2.2 wp0 hwp0 kc hkc0
      exact ⟨v0, by rw [alookup_aupdate_ne d key kc.1 value hkcne]; exact hv0,
        by rw [← heq0]; exact hw0⟩

theorem invIdx_indexValue {E : Type} (embedF : String → E) (d : KVMap) (key value : String)
    (idx : IndexSt E) (h : InvIdx embedF d idx) :
    InvIdx embedF (aupdate d key value) (indexValue embedF key value idx) := by
  have hnd : NodupKeys d := h.1
  by_cases hf : (alookup idx.forward key).isSome = true
  · have h1 : InvIdx embedF (aerase d key) (removeInternal key idx) :=
      invIdx_remove embedF d key idx h
    have hd2 : alookup (aerase d key) key = none := alookup_aerase_self d key hnd
    have h2 := invIdx_add_fresh embedF (aerase d key) key value (removeInternal key idx) h1 hd2
    have hidx : indexValue embedF key value idx =
        ⟨(tokenize value).foldl (fun inv w => incPosting inv w key)
            (removeInternal key idx).inverted,
         aupdate (removeInternal key idx).forward key (tokenize value),
         (removeInternal key idx).docCount + 1,
         aupdate (removeInternal key idx).phrases key (lowerStr value),
         aupdate (removeInternal key idx).embeddings key (embedF value)⟩ := by
      unfold indexValue
      rw [if_pos hf]
    rw [hidx]
    refine invIdx_transport embedF (aupdate (aerase d key) key value) (aupdate d key value)
      _ (nodupKeys_aupdate d key value hnd) ?_ h2
    intro x
    by_cases hx : x = key
    · rw [hx, alookup_aupdate_self, alookup_aupdate_self]
    · rw [alookup_aupdate_ne _ key x value hx, alookup_aupdate_ne _ key x value hx,
        alookup_aerase_ne d key x hx]
  · have hfn : alookup idx.forward key = none := by
      cases halp : alookup idx.forward key with
      | none => rfl
      | some ws => exact absurd (by rw [halp]; rfl) hf
    have hdnone : alookup d key = none := by
      cases hdl : alookup d key with
      | none => rfl
      | some v =>
        have hfw := (h.2.2.2.2.2.2.1 (key, v) (mem_of_alookup_eq_some hdl)).1
        rw [hfn] at hfw
        cases hfw
    have hidx : indexValue embedF key value idx =
        ⟨(tokenize value).foldl (fun inv w => incPosting inv w key) idx.inverted,
         aupdate idx.forward key (tokenize value),
         idx.docCount + 1,
         aupdate idx.phrases key (lowerStr value),
         aupdate idx.embeddings key (embedF value)⟩ := by
      unfold indexValue
      rw [if_neg hf]
    rw [hidx]
    exact invIdx_add_fresh embedF d key value idx h hdnone

theorem invIdx_bulkFold {E : Type} (embedF : String → E) : ∀ (items : List (String × String))
    (d : KVMap) (idx : IndexSt E), InvIdx embedF d idx →
    InvIdx embedF (items.foldl (fun acc p => aupdate acc p.1 p.2) d)
      (items.foldl (fun ix p => indexValue embedF p.1 p.2 ix) idx) := by
  intro items
  induction items with
  | nil => intro d idx h; exact h
  | cons p rest ih =>
    intro d idx h
    simp only [List.foldl_cons]
    exact ih _ _ (invIdx_indexValue embedF d p.1 p.2 idx h)

/-- C4 (confirmed): the index-consistency invariant `InvIdx` — every mapped
key has a forward posting, phrase entry and embedding derived from its
current value, and no index entry (forward, phrase, embedding or inverted
posting) derives from a deleted key or an overwritten old value — is
preserved by `set`, `delete` and `bulk_set`. -/
theorem c4_index_consistency : ∀ (E : Type) (embedF : String → E) (st : KVSt E)
    (key value : String) (items : List (String × String)),
    InvIdx embedF st.data st.idx →
    (InvIdx embedF (kvSet embedF key value st).data (kvSet embedF key value st).idx ∧
     InvIdx embedF (kvDelete embedF key st).2.data (kvDelete embedF key st).2.idx ∧
     InvIdx embedF (kvBulkSet embedF items st).data (kvBulkSet embedF items st).idx) := by
  intro E embedF st key value items h
  refine ⟨?_, ?_, ?_⟩
  · exact invIdx_indexValue embedF st.data key value st.idx h
  · unfold kvDelete
    by_cases hk : (alookup st.data key).isSome = true
    · rw [if_pos hk]
      exact invIdx_remove embedF st.data key st.idx h
    · rw [if_neg hk]
      exact h
  · exact invIdx_bulkFold embedF items st.data st.idx h

/-- Witness for C4: starting from the empty store (which satisfies the
invariant), a `set`, a `delete` and a `bulk_set` all preserve it. -/
theorem c4_witness :
    InvIdx (fun _ => (0 : Nat)) (kvSet (fun _ => (0 : Nat)) "a" "x y" (emptyKV Nat)).data
      (kvSet (fun _ => (0 : Nat)) "a" "x y" (emptyKV Nat)).idx ∧
    InvIdx (fun _ => (0 : Nat)) (kvBulkSet (fun _ => (0 : Nat)) [("b", "z")] (emptyKV Nat)).data
      (kvBulkSet (fun _ => (0 : Nat)) [("b", "z")] (emptyKV Nat)).idx :=
  ⟨(c4_index_consistency Nat (fun _ => (0 : Nat)) (emptyKV Nat) "a" "x y" [("b", "z")]
      (by decide)).1,
   (c4_index_consistency Nat (fun _ => (0 : Nat)) (emptyKV Nat) "a" "x y" [("b", "z")]
      (by decide)).2.2⟩
